import Mathlib

set_option maxHeartbeats 1000000

/-! Shallow embedding of the dynamic inventory management repository
(`inventory/service/thread_safe_inventory_service.py`,
`inventory/service/inventory_service.py`, `inventory/models/inventory_items.py`,
`inventory/exception/exceptions.py`).

Modelling conventions:
* Python identifiers (`str`) are lists of Unicode code points; Python compares
  strings lexicographically on code points, which `strLt` mirrors.
* Prices and quantities are exact integers (the service only compares, adds
  and multiplies them; `float` rounding plays no role in the claims).
* Python `dict` is an association list in insertion order: lookup returns the
  first (unique) match, updating an existing key replaces its value in place,
  deletion removes the entry.  Metadata dictionaries are opaque association
  lists of strings.
* Raised exceptions become `Except` with an error-kind type mirroring
  `InvalidItemError` / `ItemNotFoundError` (messages elided).
* The `functools.lru_cache` on the four query methods is a per-argument memo
  table consulted before computing and repopulated on a miss;
  `cache_clear` empties it.  Bounded LRU eviction only forgets entries, so it
  is not modelled; the claims quantify over arbitrary cache contents.
-/

/-- A Python string, as its list of Unicode code points. -/
abbrev ItemId := List Nat

/-- Python string comparison `s < t`: lexicographic on code points. -/
def strLt : ItemId → ItemId → Bool
  | _, [] => false
  | [], _ :: _ => true
  | a :: s, b :: t => decide (a < b) || (decide (a = b) && strLt s t)

/-- An index key: a `(price-or-quantity, item_id)` tuple as stored in
`_price_index` / `_quantity_index`. -/
abbrev IK := Int × ItemId

/-- Python tuple comparison on index keys: lexicographic. -/
def ikLt (a b : IK) : Bool :=
  decide (a.1 < b.1) || (decide (a.1 = b.1) && strLt a.2 b.2)

/-- Placeholder used by `List.getD`; every access is guarded by a length
check, so the placeholder is never produced. -/
def junkIK : IK := (0, [])

/-- `dict.get` / `dict.__getitem__` membership side: first (unique) match. -/
def alookup {κ ν : Type} [DecidableEq κ] : List (κ × ν) → κ → Option ν
  | [], _ => none
  | (k, v) :: t, k₀ => if k = k₀ then some v else alookup t k₀

/-- `dict[k] = v`: replaces in place when the key exists (Python dicts keep
the original insertion position), appends otherwise. -/
def dinsert {κ ν : Type} [DecidableEq κ] : List (κ × ν) → κ → ν → List (κ × ν)
  | [], k₀, v₀ => [(k₀, v₀)]
  | (k, v) :: t, k₀, v₀ =>
      if k = k₀ then (k₀, v₀) :: t else (k, v) :: dinsert t k₀ v₀

/-- `dict.pop(k, None)` / `del dict[k]`: removes the (unique) entry. -/
def dremove {κ ν : Type} [DecidableEq κ] : List (κ × ν) → κ → List (κ × ν)
  | [], _ => []
  | (k, v) :: t, k₀ => if k = k₀ then t else (k, v) :: dremove t k₀

/-- CPython `bisect.bisect_left` binary search: the `while lo < hi` loop,
narrowing `[lo, hi)` on `a[mid] < x`.  The explicit `fuel` argument only
bounds the iteration count so that the recursion is structural; the interval
shrinks every iteration, so any `fuel ≥ hi - lo` (the call below passes the
list length) yields the loop's exact result. -/
def bisectLeftAux (l : List IK) (x : IK) : Nat → Nat → Nat → Nat
  | 0, lo, _ => lo
  | fuel + 1, lo, hi =>
    if lo < hi then
      let mid := (lo + hi) / 2
      if ikLt (l.getD mid junkIK) x then bisectLeftAux l x fuel (mid + 1) hi
      else bisectLeftAux l x fuel lo mid
    else lo

/-- `bisect.bisect_left(l, x)`. -/
def bisect_left (l : List IK) (x : IK) : Nat :=
  bisectLeftAux l x l.length 0 l.length

/-- CPython `bisect.bisect_right` binary search: the `while lo < hi` loop,
narrowing `[lo, hi)` on `x < a[mid]` (same fuel device as `bisectLeftAux`). -/
def bisectRightAux (l : List IK) (x : IK) : Nat → Nat → Nat → Nat
  | 0, lo, _ => lo
  | fuel + 1, lo, hi =>
    if lo < hi then
      let mid := (lo + hi) / 2
      if ikLt x (l.getD mid junkIK) then bisectRightAux l x fuel lo mid
      else bisectRightAux l x fuel (mid + 1) hi
    else lo

/-- `bisect.bisect_right(l, x)`. -/
def bisect_right (l : List IK) (x : IK) : Nat :=
  bisectRightAux l x l.length 0 l.length

/-- Python `list.insert(n, x)` (positions past the end append). -/
def insertAt : List α → Nat → α → List α
  | l, 0, x => x :: l
  | [], _ + 1, x => [x]
  | a :: t, n + 1, x => a :: insertAt t n x

/-- Python `list.pop(n)` (the call sites always have `n < len`). -/
def popAt : List α → Nat → List α
  | [], _ => []
  | _ :: t, 0 => t
  | a :: t, n + 1 => a :: popAt t n

/-- `bisect.insort(l, x)`: insert at `bisect_right l x`. -/
def insort (l : List IK) (x : IK) : List IK := insertAt l (bisect_right l x) x

/-- Python slice `l[s:]` for an arbitrary (possibly negative) start. -/
def pySliceFrom (l : List α) (s : Int) : List α :=
  if s < 0 then l.drop ((l.length + s).toNat) else l.drop s.toNat

/-- Metadata dictionary: opaque string-keyed association list. -/
abbrev Meta := List (ItemId × ItemId)

/-- `metadata or {}` (and the reference's `if metadata is None: metadata = {}`):
an absent or empty dictionary becomes the empty dictionary; both normalizations
produce the same value. -/
def normMeta : Option Meta → Meta
  | none => []
  | some m => m

/-- `Item` (`inventory/models/inventory_items.py`); the reference
implementation's dataclass of the same name has the same three fields and is
modelled by the same structure. -/
structure Item where
  price : Int
  qty : Int
  metadata : Meta
deriving DecidableEq, Repr

/-- Placeholder for guarded `self._items[item_id]` dictionary accesses that
the service only performs for identifiers present in the store. -/
def junkItem : Item := ⟨0, 0, []⟩

/-- The two exception kinds of `inventory/exception/exceptions.py`. -/
inductive InvError where
  | invalidItem
  | itemNotFound
deriving DecidableEq, Repr

/-- The guarded state of a `ThreadSafeInventoryService`: the record store,
the two sorted secondary indexes, and the four per-method memo tables
installed by `functools.lru_cache`. -/
structure SState where
  items : List (ItemId × Item)
  price_index : List IK
  quantity_index : List IK
  cacheRQ : List ((Int × Int) × Int)
  cacheRV : List ((Int × Int) × Int)
  cacheTP : List (Int × List (ItemId × Item))
  cacheTQ : List (Int × List (ItemId × Item))
deriving DecidableEq, Repr

/-- `ThreadSafeInventoryService.__init__`. -/
def initState : SState := ⟨[], [], [], [], [], [], []⟩

/-- `_clear_caches`: `cache_clear` on all four memoized queries. -/
def clearCaches (s : SState) : SState :=
  { s with cacheRQ := [], cacheRV := [], cacheTP := [], cacheTQ := [] }

/-- `upsert_item`: validate, drop the old index entries when the identifier
exists, store the new record, insort the new index entries, clear caches.
(`if old:` is always truthy for a present `Item` object.) -/
def upsert_item (s : SState) (item_id : ItemId) (price qty : Int)
    (metadata : Option Meta) : Except InvError SState :=
  if price < 0 ∨ qty < 0 then .error .invalidItem
  else
    let s₁ :=
      match alookup s.items item_id with
      | some old =>
          let key : IK := (old.price, item_id)
          let idx := bisect_left s.price_index key
          let pI :=
            if idx < s.price_index.length ∧ s.price_index.getD idx junkIK = key
            then popAt s.price_index idx else s.price_index
          let keyQ : IK := (old.qty, item_id)
          let idxQ := bisect_left s.quantity_index keyQ
          let qI :=
            if idxQ < s.quantity_index.length ∧
                s.quantity_index.getD idxQ junkIK = keyQ
            then popAt s.quantity_index idxQ else s.quantity_index
          { s with price_index := pI, quantity_index := qI }
      | none => s
    .ok (clearCaches
      { s₁ with
        items := dinsert s₁.items item_id ⟨price, qty, normMeta metadata⟩,
        price_index := insort s₁.price_index (price, item_id),
        quantity_index := insort s₁.quantity_index (qty, item_id) })

/-- `remove_item`: pop the record (error when absent), drop its index
entries, clear caches. -/
def remove_item (s : SState) (item_id : ItemId) : Except InvError SState :=
  match alookup s.items item_id with
  | none => .error .itemNotFound
  | some item =>
      let items' := dremove s.items item_id
      let key : IK := (item.price, item_id)
      let idx := bisect_left s.price_index key
      let pI :=
        if idx < s.price_index.length ∧ s.price_index.getD idx junkIK = key
        then popAt s.price_index idx else s.price_index
      let keyQ : IK := (item.qty, item_id)
      let idxQ := bisect_left s.quantity_index keyQ
      let qI :=
        if idxQ < s.quantity_index.length ∧
            s.quantity_index.getD idxQ junkIK = keyQ
        then popAt s.quantity_index idxQ else s.quantity_index
      .ok (clearCaches
        { s with items := items', price_index := pI, quantity_index := qI })

/-- `get_item`: store lookup, `ItemNotFoundError` when absent. -/
def get_item (s : SState) (item_id : ItemId) : Except InvError Item :=
  match alookup s.items item_id with
  | some item => .ok item
  | none => .error .itemNotFound

/-- The sentinel `chr(0x10ffff)` used as the upper tie element. -/
def sentinel : ItemId := [0x10FFFF]

/-- Body of `range_query_quantity` (the computation run on a cache miss):
slice the price index between `bisect_left (low, "")` and
`bisect_right (high, chr(0x10ffff))` and sum `qty` of each resolved record. -/
def computeRQ (s : SState) (low high : Int) : Int :=
  let left := bisect_left s.price_index (low, [])
  let right := bisect_right s.price_index (high, sentinel)
  (((s.price_index.take right).drop left).map
    (fun e => ((alookup s.items e.2).getD junkItem).qty)).sum

/-- Body of `range_query_value`: same slice, summing `price * qty`. -/
def computeRV (s : SState) (low high : Int) : Int :=
  let left := bisect_left s.price_index (low, [])
  let right := bisect_right s.price_index (high, sentinel)
  (((s.price_index.take right).drop left).map
    (fun e =>
      let itm := (alookup s.items e.2).getD junkItem
      itm.price * itm.qty)).sum

/-- Body of `top_k_by_price`: `slice_k = self._price_index[-k:]`, then the
reversed slice resolved through the store. -/
def computeTP (s : SState) (k : Int) : List (ItemId × Item) :=
  let slice_k := pySliceFrom s.price_index (-k)
  slice_k.reverse.map (fun e => (e.2, (alookup s.items e.2).getD junkItem))

/-- Body of `top_k_by_quantity`. -/
def computeTQ (s : SState) (k : Int) : List (ItemId × Item) :=
  let slice_k := pySliceFrom s.quantity_index (-k)
  slice_k.reverse.map (fun e => (e.2, (alookup s.items e.2).getD junkItem))

/-- `range_query_quantity` with its `lru_cache` layer: return the memoized
result when present, otherwise compute and memoize. -/
def range_query_quantity (s : SState) (low high : Int) : Int × SState :=
  match alookup s.cacheRQ (low, high) with
  | some v => (v, s)
  | none =>
      let v := computeRQ s low high
      (v, { s with cacheRQ := ((low, high), v) :: s.cacheRQ })

/-- `range_query_value` with its `lru_cache` layer. -/
def range_query_value (s : SState) (low high : Int) : Int × SState :=
  match alookup s.cacheRV (low, high) with
  | some v => (v, s)
  | none =>
      let v := computeRV s low high
      (v, { s with cacheRV := ((low, high), v) :: s.cacheRV })

/-- `top_k_by_price` with its `lru_cache` layer. -/
def top_k_by_price (s : SState) (k : Int) : List (ItemId × Item) × SState :=
  match alookup s.cacheTP k with
  | some v => (v, s)
  | none =>
      let v := computeTP s k
      (v, { s with cacheTP := (k, v) :: s.cacheTP })

/-- `top_k_by_quantity` with its `lru_cache` layer. -/
def top_k_by_quantity (s : SState) (k : Int) : List (ItemId × Item) × SState :=
  match alookup s.cacheTQ k with
  | some v => (v, s)
  | none =>
      let v := computeTQ s k
      (v, { s with cacheTQ := (k, v) :: s.cacheTQ })

/-- `__len__`. -/
def lenItems (s : SState) : Nat := s.items.length

/-- The state after an `upsert_item` call: a raised `InvalidItemError` leaves
the state untouched (validation precedes every mutation). -/
def upsertState (s : SState) (item_id : ItemId) (price qty : Int)
    (metadata : Option Meta) : SState :=
  match upsert_item s item_id price qty metadata with
  | .ok s' => s'
  | .error _ => s

/-- The state after a `remove_item` call: a raised `ItemNotFoundError` leaves
the state untouched. -/
def removeState (s : SState) (item_id : ItemId) : SState :=
  match remove_item s item_id with
  | .ok s' => s'
  | .error _ => s

/-- States reachable from a freshly constructed service by any finite
sequence of (possibly failing) mutations and cached queries. -/
inductive Reach : SState → Prop where
  | init : Reach initState
  | upsert : ∀ s item_id price qty metadata, Reach s →
      Reach (upsertState s item_id price qty metadata)
  | remove : ∀ s item_id, Reach s → Reach (removeState s item_id)
  | rqq : ∀ s low high, Reach s → Reach (range_query_quantity s low high).2
  | rqv : ∀ s low high, Reach s → Reach (range_query_value s low high).2
  | tkp : ∀ s k, Reach s → Reach (top_k_by_price s k).2
  | tkq : ∀ s k, Reach s → Reach (top_k_by_quantity s k).2

/-! ### The strict total order on index keys -/

theorem strLt_irrefl : ∀ s : ItemId, strLt s s = false
  | [] => rfl
  | a :: s => by simp [strLt, strLt_irrefl s]

theorem strLt_trans : ∀ a b c : ItemId,
    strLt a b = true → strLt b c = true → strLt a c = true
  | _, _, [], _, h2 => by simp [strLt] at h2
  | [], _, _ :: _, _, _ => rfl
  | _ :: _, [], _ :: _, h1, _ => by simp [strLt] at h1
  | a :: s, b :: t, c :: u, h1, h2 => by
      simp only [strLt, Bool.or_eq_true, Bool.and_eq_true, decide_eq_true_eq] at h1 h2 ⊢
      rcases h1 with h1 | ⟨rfl, h1⟩ <;> rcases h2 with h2 | ⟨rfl, h2⟩
      · exact Or.inl (Nat.lt_trans h1 h2)
      · exact Or.inl h1
      · exact Or.inl h2
      · exact Or.inr ⟨rfl, strLt_trans s t u h1 h2⟩

theorem strLt_total : ∀ a b : ItemId,
    strLt a b = true ∨ a = b ∨ strLt b a = true
  | [], [] => Or.inr (Or.inl rfl)
  | [], _ :: _ => Or.inl rfl
  | _ :: _, [] => Or.inr (Or.inr rfl)
  | a :: s, b :: t => by
      rcases Nat.lt_trichotomy a b with h | rfl | h
      · exact Or.inl (by simp [strLt, h])
      · rcases strLt_total s t with h | rfl | h
        · exact Or.inl (by simp [strLt, h])
        · exact Or.inr (Or.inl rfl)
        · exact Or.inr (Or.inr (by simp [strLt, h]))
      · exact Or.inr (Or.inr (by simp [strLt, h]))

theorem ikLt_irrefl (a : IK) : ikLt a a = false := by
  simp [ikLt, strLt_irrefl]

theorem ikLt_trans {a b c : IK} (h1 : ikLt a b = true) (h2 : ikLt b c = true) :
    ikLt a c = true := by
  simp only [ikLt, Bool.or_eq_true, Bool.and_eq_true, decide_eq_true_eq] at h1 h2 ⊢
  rcases h1 with h1 | ⟨e1, h1⟩ <;> rcases h2 with h2 | ⟨e2, h2⟩
  · exact Or.inl (lt_trans h1 h2)
  · exact Or.inl (e2 ▸ h1)
  · exact Or.inl (e1 ▸ h2)
  · exact Or.inr ⟨e1.trans e2, strLt_trans _ _ _ h1 h2⟩

theorem ikLt_total (a b : IK) : ikLt a b = true ∨ a = b ∨ ikLt b a = true := by
  obtain ⟨a1, a2⟩ := a
  obtain ⟨b1, b2⟩ := b
  rcases lt_trichotomy a1 b1 with h | rfl | h
  · exact Or.inl (by simp [ikLt, h])
  · rcases strLt_total a2 b2 with h | rfl | h
    · exact Or.inl (by simp [ikLt, h])
    · exact Or.inr (Or.inl rfl)
    · exact Or.inr (Or.inr (by simp [ikLt, h]))
  · exact Or.inr (Or.inr (by simp [ikLt, h]))

theorem ikLt_asymm {a b : IK} (h : ikLt a b = true) : ikLt b a = false := by
  by_contra hc
  have hba : ikLt b a = true := by
    revert hc; cases ikLt b a <;> simp
  have := ikLt_trans h hba
  rw [ikLt_irrefl] at this
  exact Bool.false_ne_true this

theorem ikLt_eq_of_not {a b : IK} (h1 : ikLt a b = false)
    (h2 : ikLt b a = false) : a = b := by
  rcases ikLt_total a b with h | h | h
  · rw [h1] at h; exact absurd h Bool.false_ne_true
  · exact h
  · rw [h2] at h; exact absurd h Bool.false_ne_true

/-- `x ≤ y` and `y < z` give `x < z` (with `≤` as negated `ikLt`). -/
theorem ikLt_of_le_of_lt {x y z : IK} (hxy : ikLt y x = false)
    (hyz : ikLt y z = true) : ikLt x z = true := by
  rcases ikLt_total x z with h | rfl | h
  · exact h
  · rw [hyz] at hxy; exact absurd hxy (by decide)
  · have := ikLt_trans hyz h
    rw [hxy] at this; exact absurd this Bool.false_ne_true

/-- `x < y` and `y ≤ z` give `x < z`. -/
theorem ikLt_of_lt_of_le {x y z : IK} (hxy : ikLt x y = true)
    (hyz : ikLt z y = false) : ikLt x z = true := by
  rcases ikLt_total x z with h | rfl | h
  · exact h
  · rw [hxy] at hyz; exact absurd hyz (by decide)
  · have := ikLt_trans h hxy
    rw [hyz] at this; exact absurd this Bool.false_ne_true

/-- Sortedness of an index list: no later entry is below an earlier one
(non-decreasing in the tuple order). -/
def SortedIK (l : List IK) : Prop := l.Pairwise (fun a b => ikLt b a = false)

/-! ### Positional characterization of the binary searches -/

theorem countP_eq_of_getD (p : IK → Bool) :
    ∀ (l : List IK) (n : Nat), n ≤ l.length →
    (∀ i, i < n → p (l.getD i junkIK) = true) →
    (∀ i, n ≤ i → i < l.length → p (l.getD i junkIK) = false) →
    l.countP p = n := by
  intro l
  induction l with
  | nil =>
    intro n hn _ _
    simp only [List.length_nil, Nat.le_zero] at hn
    simp [hn]
  | cons a t ih =>
    intro n hn h1 h2
    cases n with
    | zero =>
      have ha : p a = false := by simpa using h2 0 (Nat.zero_le _) (by simp)
      rw [List.countP_cons, ha]
      simp only [Bool.false_eq_true, if_false, Nat.add_zero]
      exact ih 0 (Nat.zero_le _) (fun i hi => absurd hi (Nat.not_lt_zero i))
        (fun i _ hi => by
          simpa using h2 (i + 1) (Nat.zero_le _)
            (by simpa using Nat.succ_lt_succ hi))
    | succ m =>
      have ha : p a = true := by simpa using h1 0 (Nat.succ_pos m)
      rw [List.countP_cons, ha]
      simp only [if_true]
      have hrec := ih m (by simpa using hn)
        (fun i hi => by simpa using h1 (i + 1) (Nat.succ_lt_succ hi))
        (fun i hm hi => by
          simpa using h2 (i + 1) (Nat.succ_le_succ hm)
            (by simpa using Nat.succ_lt_succ hi))
      omega

theorem SortedIK.getD_le {l : List IK} (hs : SortedIK l) {i j : Nat}
    (hij : i < j) (hj : j < l.length) :
    ikLt (l.getD j junkIK) (l.getD i junkIK) = false := by
  have hi : i < l.length := lt_trans hij hj
  rw [List.getD_eq_getElem l junkIK hi, List.getD_eq_getElem l junkIK hj]
  exact (List.pairwise_iff_getElem.mp hs) i j hi hj hij

theorem bisectLeftAux_char (l : List IK) (x : IK) (hs : SortedIK l) :
    ∀ (fuel lo hi : Nat), lo ≤ hi → hi ≤ l.length → hi - lo ≤ fuel →
    (∀ i, i < lo → ikLt (l.getD i junkIK) x = true) →
    (∀ i, hi ≤ i → i < l.length → ikLt (l.getD i junkIK) x = false) →
    bisectLeftAux l x fuel lo hi = l.countP (fun e => ikLt e x) := by
  intro fuel
  induction fuel with
  | zero =>
    intro lo hi hlohi hhi hfuel h1 h2
    have heq : lo = hi := by omega
    subst heq
    rw [bisectLeftAux]
    exact (countP_eq_of_getD _ l lo (by omega) h1
      (fun i hm hilen => h2 i hm hilen)).symm
  | succ fuel ih =>
    intro lo hi hlohi hhi hfuel h1 h2
    rw [bisectLeftAux]
    split
    · next hlt =>
      have hmidlen : (lo + hi) / 2 < l.length := by omega
      dsimp only
      split
      · next hmid =>
        exact ih ((lo + hi) / 2 + 1) hi (by omega) hhi (by omega)
          (fun i hi' => by
            by_cases he : i = (lo + hi) / 2
            · exact he ▸ hmid
            · exact ikLt_of_le_of_lt
                (hs.getD_le (show i < (lo + hi) / 2 by omega) hmidlen) hmid)
          h2
      · next hmid =>
        have hmid' : ikLt (l.getD ((lo + hi) / 2) junkIK) x = false := by
          revert hmid; cases ikLt (l.getD ((lo + hi) / 2) junkIK) x <;> simp
        exact ih lo ((lo + hi) / 2) (by omega) (by omega) (by omega)
          h1
          (fun i hm hilen => by
            by_cases he : i = (lo + hi) / 2
            · exact he ▸ hmid'
            · cases hb : ikLt (l.getD i junkIK) x with
              | false => rfl
              | true =>
                have := ikLt_of_le_of_lt
                  (hs.getD_le (show (lo + hi) / 2 < i by omega) hilen) hb
                rw [hmid'] at this
                exact absurd this (by decide))
    · next hge =>
      have heq : lo = hi := by omega
      subst heq
      exact (countP_eq_of_getD _ l lo (by omega) h1
        (fun i hm hilen => h2 i hm hilen)).symm

theorem bisectRightAux_char (l : List IK) (x : IK) (hs : SortedIK l) :
    ∀ (fuel lo hi : Nat), lo ≤ hi → hi ≤ l.length → hi - lo ≤ fuel →
    (∀ i, i < lo → ikLt x (l.getD i junkIK) = false) →
    (∀ i, hi ≤ i → i < l.length → ikLt x (l.getD i junkIK) = true) →
    bisectRightAux l x fuel lo hi = l.countP (fun e => !ikLt x e) := by
  intro fuel
  induction fuel with
  | zero =>
    intro lo hi hlohi hhi hfuel h1 h2
    have heq : lo = hi := by omega
    subst heq
    rw [bisectRightAux]
    refine (countP_eq_of_getD _ l lo (by omega) ?_ ?_).symm
    · intro i hi'
      rw [h1 i hi']
      rfl
    · intro i hm hilen
      rw [h2 i hm hilen]
      rfl
  | succ fuel ih =>
    intro lo hi hlohi hhi hfuel h1 h2
    rw [bisectRightAux]
    split
    · next hlt =>
      have hmidlen : (lo + hi) / 2 < l.length := by omega
      dsimp only
      split
      · next hmid =>
        exact ih lo ((lo + hi) / 2) (by omega) (by omega) (by omega)
          h1
          (fun i hm hilen => by
            by_cases he : i = (lo + hi) / 2
            · exact he ▸ hmid
            · exact ikLt_of_lt_of_le hmid
                (hs.getD_le (show (lo + hi) / 2 < i by omega) hilen))
      · next hmid =>
        have hmid' : ikLt x (l.getD ((lo + hi) / 2) junkIK) = false := by
          revert hmid; cases ikLt x (l.getD ((lo + hi) / 2) junkIK) <;> simp
        exact ih ((lo + hi) / 2 + 1) hi (by omega) hhi (by omega)
          (fun i hi' => by
            by_cases he : i = (lo + hi) / 2
            · exact he ▸ hmid'
            · cases hb : ikLt x (l.getD i junkIK) with
              | false => rfl
              | true =>
                have := ikLt_of_lt_of_le hb
                  (hs.getD_le (show i < (lo + hi) / 2 by omega) hmidlen)
                rw [hmid'] at this
                exact absurd this (by decide))
          h2
    · next hge =>
      have heq : lo = hi := by omega
      subst heq
      refine (countP_eq_of_getD _ l lo (by omega) ?_ ?_).symm
      · intro i hi'
        rw [h1 i hi']
        rfl
      · intro i hm hilen
        rw [h2 i hm hilen]
        rfl

/-- On a sorted list, `bisect_left l x` is the number of entries below `x`. -/
theorem bisect_left_char {l : List IK} {x : IK} (hs : SortedIK l) :
    bisect_left l x = l.countP (fun e => ikLt e x) :=
  bisectLeftAux_char l x hs l.length 0 l.length (Nat.zero_le _) (le_refl _)
    (by omega) (fun i hi => absurd hi (Nat.not_lt_zero i))
    (fun i hm hi => absurd hi (by omega))

/-- On a sorted list, `bisect_right l x` is the number of entries not above
`x`. -/
theorem bisect_right_char {l : List IK} {x : IK} (hs : SortedIK l) :
    bisect_right l x = l.countP (fun e => !ikLt x e) :=
  bisectRightAux_char l x hs l.length 0 l.length (Nat.zero_le _) (le_refl _)
    (by omega) (fun i hi => absurd hi (Nat.not_lt_zero i))
    (fun i hm hi => absurd hi (by omega))

/-! ### Sorted-list structure: slices, insertion, removal -/

/-- On a sorted list, the entries satisfying a downward-closed predicate form
the prefix of length `countP p l`; the rest form the corresponding suffix. -/
theorem sorted_take_countP {p : IK → Bool}
    (hdc : ∀ a b, p b = true → ikLt b a = false → p a = true) :
    ∀ {l : List IK}, SortedIK l →
      l.take (l.countP p) = l.filter p ∧
      l.drop (l.countP p) = l.filter (fun e => !p e) := by
  intro l
  induction l with
  | nil => intro _; exact ⟨rfl, rfl⟩
  | cons a t ih =>
    intro hs
    rw [SortedIK, List.pairwise_cons] at hs
    obtain ⟨ha, ht⟩ := hs
    obtain ⟨iht, ihd⟩ := ih ht
    cases hpa : p a with
    | true =>
      rw [List.countP_cons, hpa, if_pos rfl, List.take_succ_cons,
        List.drop_succ_cons, List.filter_cons_of_pos hpa,
        List.filter_cons_of_neg (by simp [hpa]), iht, ihd]
      exact ⟨rfl, rfl⟩
    | false =>
      have hzero : t.countP p = 0 := by
        rw [List.countP_eq_zero]
        intro x hx hpx
        rw [hdc a x hpx (ha x hx)] at hpa
        exact absurd hpa (by decide)
      have hnone : ∀ x ∈ t, ¬p x = true := by
        intro x hx hpx
        rw [hdc a x hpx (ha x hx)] at hpa
        exact absurd hpa (by decide)
      rw [List.countP_cons, hpa, hzero]
      simp only [Bool.false_eq_true, if_false, Nat.add_zero, List.take_zero,
        List.drop_zero]
      constructor
      · rw [List.filter_cons_of_neg (by simp [hpa]),
          List.filter_eq_nil_iff.mpr hnone]
      · rw [List.filter_cons_of_pos (by simp [hpa]),
          List.filter_eq_self.mpr (fun x hx => by
            cases hpx : p x with
            | true => exact absurd (hnone x hx) (by simp [hpx])
            | false => rfl)]

theorem insertAt_perm (x : α) :
    ∀ (l : List α) (n : Nat), (insertAt l n x).Perm (x :: l)
  | l, 0 => by rw [insertAt]
  | [], _ + 1 => by rw [insertAt]
  | a :: t, n + 1 => by
      rw [insertAt]
      exact ((insertAt_perm x t n).cons a).trans (List.Perm.swap x a t)

theorem insertAt_eq (x : α) :
    ∀ (l : List α) (n : Nat), n ≤ l.length →
      insertAt l n x = l.take n ++ x :: l.drop n
  | l, 0, _ => by rw [insertAt, List.take_zero, List.drop_zero]; rfl
  | [], n + 1, h => by simp at h
  | a :: t, n + 1, h => by
      rw [insertAt, insertAt_eq x t n (by simpa using h), List.take_succ_cons,
        List.drop_succ_cons]
      rfl

theorem popAt_eq :
    ∀ (l : List α) (n : Nat), n < l.length →
      popAt l n = l.take n ++ l.drop (n + 1)
  | [], n, h => by simp at h
  | _ :: t, 0, _ => by rw [popAt, List.take_zero, List.drop_succ_cons,
      List.drop_zero]; rfl
  | a :: t, n + 1, h => by
      rw [popAt, popAt_eq t n (by simpa using h), List.take_succ_cons,
        List.drop_succ_cons]
      rfl

theorem popAt_sublist : ∀ (l : List α) (n : Nat), (popAt l n).Sublist l
  | [], _ => by rw [popAt]
  | _ :: t, 0 => by rw [popAt]; exact List.sublist_cons_self _ t
  | a :: t, n + 1 => by rw [popAt]; exact (popAt_sublist t n).cons₂ a

/-- `insort` always produces a permutation of consing the new entry. -/
theorem insort_perm (l : List IK) (x : IK) : (insort l x).Perm (x :: l) :=
  insertAt_perm x l _

/-- `insort` keeps a sorted index sorted. -/
theorem insort_sorted {l : List IK} (hs : SortedIK l) (x : IK) :
    SortedIK (insort l x) := by
  have hdc : ∀ a b : IK, (!ikLt x b) = true → ikLt b a = false →
      (!ikLt x a) = true := by
    intro a b hb hba
    cases hxa : ikLt x a with
    | false => rfl
    | true =>
      have := ikLt_of_lt_of_le hxa hba
      simp [this] at hb
  obtain ⟨htake, hdrop⟩ := sorted_take_countP hdc hs
  rw [insort, bisect_right_char hs,
    insertAt_eq x l _ (List.countP_le_length _)]
  have hs2 : SortedIK (l.take (l.countP fun e => !ikLt x e) ++
      l.drop (l.countP fun e => !ikLt x e)) := by
    rw [List.take_append_drop]; exact hs
  rw [SortedIK, List.pairwise_append]
  refine ⟨hs.sublist (List.take_sublist _ _), ?_, ?_⟩
  · rw [List.pairwise_cons]
    constructor
    · intro b hb
      rw [hdrop] at hb
      have hpb := List.of_mem_filter hb
      simp only [Bool.not_not] at hpb
      exact ikLt_asymm hpb
    · exact hs.sublist (List.drop_sublist _ _)
  · intro a hain b hbin
    rcases List.mem_cons.mp hbin with rfl | hb
    · rw [htake] at hain
      have hpa := List.of_mem_filter hain
      simpa using hpa
    · exact (List.pairwise_append.mp hs2).2.2 a hain b hb

/-- On a sorted list containing `key`, `bisect_left` locates an exact
occurrence of `key`, splitting the list around it. -/
theorem sorted_split_at_key {l : List IK} {key : IK} (hs : SortedIK l)
    (hmem : key ∈ l) :
    bisect_left l key < l.length ∧
    l.getD (bisect_left l key) junkIK = key ∧
    l = l.take (bisect_left l key) ++
      key :: l.drop (bisect_left l key + 1) := by
  have hdc : ∀ a b : IK, ikLt b key = true → ikLt b a = false →
      ikLt a key = true := by
    intro a b hb hba
    exact ikLt_of_le_of_lt hba hb
  obtain ⟨htake, hdrop⟩ := sorted_take_countP hdc hs
  rw [bisect_left_char hs]
  set c := l.countP (fun e => ikLt e key) with hc
  have hkey_not_take : key ∉ l.take c := by
    rw [htake]
    intro h
    have := List.of_mem_filter h
    rw [ikLt_irrefl] at this
    exact absurd this (by decide)
  have hkey_drop : key ∈ l.drop c := by
    have : key ∈ l.take c ++ l.drop c := by
      rw [List.take_append_drop]; exact hmem
    rcases List.mem_append.mp this with h | h
    · exact absurd h hkey_not_take
    · exact h
  obtain ⟨d, rest, hd⟩ : ∃ d rest, l.drop c = d :: rest := by
    cases hdl : l.drop c with
    | nil => rw [hdl] at hkey_drop; exact absurd hkey_drop (List.not_mem_nil key)
    | cons d rest => exact ⟨d, rest, rfl⟩
  have hclen : c < l.length := by
    by_contra h
    rw [List.drop_eq_nil_of_le (by omega)] at hd
    exact List.noConfusion hd
  have hd_le : ikLt d key = false := by
    have : d ∈ l.filter (fun e => !ikLt e key) := by
      rw [← hdrop, hd]; exact List.mem_cons_self d rest
    have := List.of_mem_filter this
    simpa using this
  have hdk : d = key := by
    rcases List.mem_cons.mp (hd ▸ hkey_drop) with h | h
    · exact h.symm
    · have hs_drop : SortedIK (l.drop c) := hs.sublist (List.drop_sublist _ _)
      rw [hd, SortedIK, List.pairwise_cons] at hs_drop
      exact ikLt_eq_of_not hd_le (hs_drop.1 key h)
  have hgetd : l.getD c junkIK = key := by
    have h0 : (l.drop c).getD 0 junkIK = l.getD c junkIK := by
      rw [List.getD_eq_getElem _ junkIK (by rw [hd]; simp),
        List.getD_eq_getElem l junkIK hclen, List.getElem_drop]
      simp
    rw [← h0, hd, List.getD_cons_zero, hdk]
  refine ⟨hclen, hgetd, ?_⟩
  have htail : l.drop (c + 1) = rest := by
    rw [← List.tail_drop, hd, List.tail_cons]
  rw [htail, ← hdk, ← hd, List.take_append_drop]

theorem popAt_sorted {l : List IK} (hs : SortedIK l) (n : Nat) :
    SortedIK (popAt l n) := hs.sublist (popAt_sublist l n)

/-- Popping the entry located by `bisect_left` removes exactly one occurrence
of a present key. -/
theorem pop_key_perm {l : List IK} {key : IK} {m : List IK} (hs : SortedIK l)
    (hperm : l.Perm (key :: m)) :
    (popAt l (bisect_left l key)).Perm m := by
  have hmem : key ∈ l := hperm.mem_iff.mpr (List.mem_cons_self key m)
  obtain ⟨hlen, _, hsplit⟩ := sorted_split_at_key hs hmem
  rw [popAt_eq l _ hlen]
  have h1 : (l.take (bisect_left l key) ++
      key :: l.drop (bisect_left l key + 1)).Perm
      (key :: (l.take (bisect_left l key) ++
        l.drop (bisect_left l key + 1))) := List.perm_middle
  exact (h1.symm.trans (hsplit ▸ hperm)).cons_inv

/-- Removing and re-inserting a present key of a duplicate-free sorted index
reproduces the index exactly. -/
theorem insort_popAt_self {l : List IK} {key : IK} (hs : SortedIK l)
    (hnd : l.Nodup) (hmem : key ∈ l) :
    insort (popAt l (bisect_left l key)) key = l := by
  obtain ⟨hlen, hget, hsplit⟩ := sorted_split_at_key hs hmem
  have hchar : bisect_left l key = l.countP (fun e => ikLt e key) :=
    bisect_left_char hs
  obtain ⟨htake, hdrop⟩ := sorted_take_countP
    (fun a b hb hba => ikLt_of_le_of_lt hba hb) hs
  set c := bisect_left l key with hcdef
  set A := l.take c with hAdef
  set D := l.drop (c + 1) with hDdef
  have hAlen : A.length = c := by
    rw [hAdef]
    exact List.length_take_of_le (by omega)
  have hpop : popAt l c = A ++ D := popAt_eq l c hlen
  have hs_pop : SortedIK (popAt l c) := popAt_sorted hs c
  have hA_all : ∀ e ∈ A, ikLt e key = true := by
    intro e he
    rw [hAdef, hchar, htake] at he
    exact (List.mem_filter.mp he).2
  have hkey_notD : key ∉ D := by
    intro h
    have hnd2 : (A ++ key :: D).Nodup := hsplit ▸ hnd
    exact (List.nodup_cons.mp (List.nodup_append.mp hnd2).2.1).1 h
  have hD_ge : ∀ e ∈ D, ikLt e key = false := by
    intro e he
    have hs2 : SortedIK (A ++ key :: D) := hsplit ▸ hs
    exact (List.pairwise_cons.mp
      (List.pairwise_append.mp hs2).2.1).1 e he
  have hD_gt : ∀ e ∈ D, ikLt key e = true := by
    intro e he
    have hne : e ≠ key := fun h => hkey_notD (h ▸ he)
    rcases ikLt_total key e with h | h | h
    · exact h
    · exact absurd h.symm hne
    · rw [hD_ge e he] at h; exact absurd h (by decide)
  have hcount : (A ++ D).countP (fun e => !ikLt key e) = c := by
    rw [List.countP_append]
    have h1 : A.countP (fun e => !ikLt key e) = A.length :=
      List.countP_eq_length.mpr
        (fun e he => by simp [ikLt_asymm (hA_all e he)])
    have h2 : D.countP (fun e => !ikLt key e) = 0 :=
      List.countP_eq_zero.mpr (fun e he => by simp [hD_gt e he])
    rw [h1, h2, hAlen]
    omega
  rw [insort, hpop, bisect_right_char (hpop ▸ hs_pop), hcount,
    insertAt_eq key (A ++ D) c (by rw [List.length_append, hAlen]; omega),
    List.take_left' hAlen, List.drop_left' hAlen]
  exact hsplit.symm

/-! ### Association-list dictionary lemmas -/

section Dict

variable {κ ν : Type} [DecidableEq κ]

theorem alookup_eq_none {d : List (κ × ν)} {k : κ} :
    alookup d k = none ↔ k ∉ d.map Prod.fst := by
  induction d with
  | nil => simp [alookup]
  | cons e t ih =>
    obtain ⟨k₁, v₁⟩ := e
    by_cases h : k₁ = k
    · subst h
      simp [alookup]
    · simp [alookup, h, ih, Ne.symm h]

theorem alookup_mem {d : List (κ × ν)} {k : κ} {v : ν}
    (h : alookup d k = some v) : (k, v) ∈ d := by
  induction d with
  | nil => simp [alookup] at h
  | cons e t ih =>
    obtain ⟨k₁, v₁⟩ := e
    rw [alookup] at h
    split at h
    · next he =>
      cases h
      exact he ▸ List.mem_cons_self _ _
    · exact List.mem_cons_of_mem _ (ih h)

theorem alookup_of_mem {d : List (κ × ν)} (hnd : (d.map Prod.fst).Nodup)
    {k : κ} {v : ν} (h : (k, v) ∈ d) : alookup d k = some v := by
  induction d with
  | nil => simp at h
  | cons e t ih =>
    obtain ⟨k₁, v₁⟩ := e
    rw [List.map_cons, List.nodup_cons] at hnd
    rw [alookup]
    rcases List.mem_cons.mp h with he | ht
    · cases he
      rw [if_pos rfl]
    · split
      · next heq =>
        subst heq
        exact absurd (List.mem_map_of_mem Prod.fst ht) hnd.1
      · exact ih hnd.2 ht

/-- Updating a dictionary is, up to ordering, consing the new pair onto the
dictionary with the key removed. -/
theorem dinsert_perm (d : List (κ × ν)) (k : κ) (v : ν) :
    (dinsert d k v).Perm ((k, v) :: dremove d k) := by
  induction d with
  | nil => rw [dinsert, dremove]
  | cons e t ih =>
    obtain ⟨k₁, v₁⟩ := e
    rw [dinsert, dremove]
    by_cases h : k₁ = k
    · rw [if_pos h, if_pos h]
    · rw [if_neg h, if_neg h]
      exact (ih.cons _).trans (List.Perm.swap _ _ _)

/-- A dictionary containing `k` is, up to ordering, that pair consed onto
the dictionary with `k` removed. -/
theorem perm_cons_dremove {d : List (κ × ν)} {k : κ} {v : ν}
    (h : alookup d k = some v) : d.Perm ((k, v) :: dremove d k) := by
  induction d with
  | nil => simp [alookup] at h
  | cons e t ih =>
    obtain ⟨k₁, v₁⟩ := e
    rw [alookup] at h
    rw [dremove]
    split at h
    · next he =>
      cases h
      rw [if_pos he, he]
    · next he =>
      rw [if_neg he]
      exact ((ih h).cons _).trans (List.Perm.swap _ _ _)

theorem dremove_sublist (d : List (κ × ν)) (k : κ) :
    (dremove d k).Sublist d := by
  induction d with
  | nil => rw [dremove]
  | cons e t ih =>
    obtain ⟨k₁, v₁⟩ := e
    rw [dremove]
    split
    · exact List.sublist_cons_self _ t
    · exact ih.cons₂ _

theorem dinsert_keys_present {d : List (κ × ν)} {k : κ} (v : ν)
    (h : k ∈ d.map Prod.fst) :
    (dinsert d k v).map Prod.fst = d.map Prod.fst := by
  induction d with
  | nil => simp at h
  | cons e t ih =>
    obtain ⟨k₁, v₁⟩ := e
    rw [dinsert]
    by_cases he : k₁ = k
    · subst he
      rw [if_pos rfl, List.map_cons, List.map_cons]
    · rw [if_neg he, List.map_cons, List.map_cons,
        ih (by simpa [Ne.symm he] using h)]

theorem dinsert_keys_absent {d : List (κ × ν)} {k : κ} (v : ν)
    (h : k ∉ d.map Prod.fst) :
    (dinsert d k v).map Prod.fst = d.map Prod.fst ++ [k] := by
  induction d with
  | nil => rw [dinsert]; rfl
  | cons e t ih =>
    obtain ⟨k₁, v₁⟩ := e
    rw [List.map_cons] at h
    rw [dinsert, if_neg (by intro he; exact h (he ▸ List.mem_cons_self _ _)),
      List.map_cons, List.map_cons,
      ih (fun ht => h (List.mem_cons_of_mem _ ht))]
    rfl

/-- Re-writing the value already stored under a key is a no-op. -/
theorem dinsert_self {d : List (κ × ν)} {k : κ} {v : ν}
    (h : alookup d k = some v) : dinsert d k v = d := by
  induction d with
  | nil => simp [alookup] at h
  | cons e t ih =>
    obtain ⟨k₁, v₁⟩ := e
    rw [alookup] at h
    rw [dinsert]
    split at h
    · next he =>
      cases h
      rw [if_pos he, he]
    · next he =>
      rw [if_neg he, ih h]

theorem alookup_dinsert_self (d : List (κ × ν)) (k : κ) (v : ν) :
    alookup (dinsert d k v) k = some v := by
  induction d with
  | nil => simp [dinsert, alookup]
  | cons e t ih =>
    obtain ⟨k₁, v₁⟩ := e
    rw [dinsert]
    by_cases he : k₁ = k
    · rw [if_pos he, alookup, if_pos rfl]
    · rw [if_neg he, alookup, if_neg he, ih]

theorem alookup_dinsert_ne (d : List (κ × ν)) {k k' : κ} (v : ν)
    (hne : k ≠ k') :
    alookup (dinsert d k v) k' = alookup d k' := by
  induction d with
  | nil => simp [dinsert, alookup, hne]
  | cons e t ih =>
    obtain ⟨k₁, v₁⟩ := e
    rw [dinsert]
    by_cases he : k₁ = k
    · rw [if_pos he, alookup, alookup, if_neg hne, he, if_neg hne]
    · rw [if_neg he, alookup, alookup]
      split
      · rfl
      · exact ih

theorem alookup_dremove_ne (d : List (κ × ν)) {k k' : κ} (hne : k ≠ k') :
    alookup (dremove d k) k' = alookup d k' := by
  induction d with
  | nil => rw [dremove]
  | cons e t ih =>
    obtain ⟨k₁, v₁⟩ := e
    rw [dremove]
    by_cases he : k₁ = k
    · rw [if_pos he, alookup, if_neg (he ▸ hne)]
    · rw [if_neg he, alookup, alookup]
      split
      · rfl
      · exact ih

end Dict

/-- `dict[k] = v` on a dictionary not containing `k` appends the pair. -/
theorem dinsert_absent {κ ν : Type} [DecidableEq κ] {d : List (κ × ν)}
    {k : κ} (v : ν) (h : alookup d k = none) : dinsert d k v = d ++ [(k, v)] := by
  induction d with
  | nil => rw [dinsert]; rfl
  | cons e t ih =>
    obtain ⟨k₁, v₁⟩ := e
    rw [alookup] at h
    split at h
    · exact Option.noConfusion h
    · next he =>
      rw [dinsert, if_neg he, ih h]
      rfl

/-! ### The service invariant -/

/-- The `(price, id)` entries induced by the record store. -/
def priceEntries (items : List (ItemId × Item)) : List IK :=
  items.map (fun kv => (kv.2.price, kv.1))

/-- The `(qty, id)` entries induced by the record store. -/
def qtyEntries (items : List (ItemId × Item)) : List IK :=
  items.map (fun kv => (kv.2.qty, kv.1))

/-- Well-formedness of a service state: store keys are unique, each index is
a sorted rearrangement of the store's induced entries, and every memo-table
entry agrees with the uncached computation on the current state. -/
structure SInv (s : SState) : Prop where
  nodupKeys : (s.items.map Prod.fst).Nodup
  ppermE : s.price_index.Perm (priceEntries s.items)
  psort : SortedIK s.price_index
  qpermE : s.quantity_index.Perm (qtyEntries s.items)
  qsort : SortedIK s.quantity_index
  cRQ : ∀ a v, alookup s.cacheRQ a = some v → v = computeRQ s a.1 a.2
  cRV : ∀ a v, alookup s.cacheRV a = some v → v = computeRV s a.1 a.2
  cTP : ∀ k v, alookup s.cacheTP k = some v → v = computeTP s k
  cTQ : ∀ k v, alookup s.cacheTQ k = some v → v = computeTQ s k

/-- On a sorted index containing `key`, the guarded-pop snippet takes its
`then` branch. -/
theorem snippet_eq_popAt {l : List IK} {key : IK} (hs : SortedIK l)
    (hmem : key ∈ l) :
    (if bisect_left l key < l.length ∧
        l.getD (bisect_left l key) junkIK = key
     then popAt l (bisect_left l key) else l) =
      popAt l (bisect_left l key) := by
  obtain ⟨h1, h2, _⟩ := sorted_split_at_key hs hmem
  rw [if_pos ⟨h1, h2⟩]

theorem SInv.upsert_ok {s : SState} (inv : SInv s) {item_id : ItemId}
    {p q : Int} {me : Option Meta} {s' : SState}
    (h : upsert_item s item_id p q me = .ok s') : SInv s' := by
  rw [upsert_item] at h
  split at h
  · exact Except.noConfusion h
  · next hv =>
    cases hl : alookup s.items item_id with
    | none =>
      simp only [hl] at h
      injection h with h
      subst h
      have hid : item_id ∉ s.items.map Prod.fst := alookup_eq_none.mp hl
      refine ⟨?_, ?_, ?_, ?_, ?_, ?_, ?_, ?_, ?_⟩
      · show ((dinsert s.items item_id _).map Prod.fst).Nodup
        rw [dinsert_keys_absent _ hid,
          (List.perm_append_singleton _ _).nodup_iff]
        exact List.nodup_cons.mpr ⟨hid, inv.nodupKeys⟩
      · show (insort s.price_index (p, item_id)).Perm
          (priceEntries (dinsert s.items item_id ⟨p, q, normMeta me⟩))
        rw [dinsert_absent _ hl, priceEntries, List.map_append]
        exact (insort_perm _ _).trans ((inv.ppermE.cons _).trans
          (List.perm_append_singleton _ _).symm)
      · exact insort_sorted inv.psort _
      · show (insort s.quantity_index (q, item_id)).Perm
          (qtyEntries (dinsert s.items item_id ⟨p, q, normMeta me⟩))
        rw [dinsert_absent _ hl, qtyEntries, List.map_append]
        exact (insort_perm _ _).trans ((inv.qpermE.cons _).trans
          (List.perm_append_singleton _ _).symm)
      · exact insort_sorted inv.qsort _
      · intro a v hv'; exact Option.noConfusion hv'
      · intro a v hv'; exact Option.noConfusion hv'
      · intro a v hv'; exact Option.noConfusion hv'
      · intro a v hv'; exact Option.noConfusion hv'
    | some old =>
      simp only [hl] at h
      injection h with h
      subst h
      have hkeymem : item_id ∈ s.items.map Prod.fst :=
        List.mem_map_of_mem Prod.fst (alookup_mem hl)
      have hpermItems : s.items.Perm
          ((item_id, old) :: dremove s.items item_id) := perm_cons_dremove hl
      have hpE : (priceEntries s.items).Perm
          ((old.price, item_id) :: priceEntries (dremove s.items item_id)) :=
        hpermItems.map _
      have hqE : (qtyEntries s.items).Perm
          ((old.qty, item_id) :: qtyEntries (dremove s.items item_id)) :=
        hpermItems.map _
      have hpPerm := inv.ppermE.trans hpE
      have hqPerm := inv.qpermE.trans hqE
      have hpMem : ((old.price : Int), item_id) ∈ s.price_index :=
        hpPerm.mem_iff.mpr (List.mem_cons_self _ _)
      have hqMem : ((old.qty : Int), item_id) ∈ s.quantity_index :=
        hqPerm.mem_iff.mpr (List.mem_cons_self _ _)
      rw [snippet_eq_popAt inv.psort hpMem, snippet_eq_popAt inv.qsort hqMem]
      have hEI : (priceEntries (dinsert s.items item_id
          ⟨p, q, normMeta me⟩)).Perm
          ((p, item_id) :: priceEntries (dremove s.items item_id)) :=
        (dinsert_perm s.items item_id ⟨p, q, normMeta me⟩).map _
      have hEIq : (qtyEntries (dinsert s.items item_id
          ⟨p, q, normMeta me⟩)).Perm
          ((q, item_id) :: qtyEntries (dremove s.items item_id)) :=
        (dinsert_perm s.items item_id ⟨p, q, normMeta me⟩).map _
      refine ⟨?_, ?_, ?_, ?_, ?_, ?_, ?_, ?_, ?_⟩
      · show ((dinsert s.items item_id _).map Prod.fst).Nodup
        rw [dinsert_keys_present _ hkeymem]
        exact inv.nodupKeys
      · exact (insort_perm _ _).trans
          (((pop_key_perm inv.psort hpPerm).cons _).trans hEI.symm)
      · exact insort_sorted (popAt_sorted inv.psort _) _
      · exact (insort_perm _ _).trans
          (((pop_key_perm inv.qsort hqPerm).cons _).trans hEIq.symm)
      · exact insort_sorted (popAt_sorted inv.qsort _) _
      · intro a v hv'; exact Option.noConfusion hv'
      · intro a v hv'; exact Option.noConfusion hv'
      · intro a v hv'; exact Option.noConfusion hv'
      · intro a v hv'; exact Option.noConfusion hv'

theorem SInv.remove_ok {s : SState} (inv : SInv s) {item_id : ItemId}
    {s' : SState} (h : remove_item s item_id = .ok s') : SInv s' := by
  rw [remove_item] at h
  cases hl : alookup s.items item_id with
  | none =>
    rw [hl] at h
    exact Except.noConfusion h
  | some item =>
    simp only [hl] at h
    injection h with h
    subst h
    have hpermItems : s.items.Perm
        ((item_id, item) :: dremove s.items item_id) := perm_cons_dremove hl
    have hpE : (priceEntries s.items).Perm
        ((item.price, item_id) :: priceEntries (dremove s.items item_id)) :=
      hpermItems.map _
    have hqE : (qtyEntries s.items).Perm
        ((item.qty, item_id) :: qtyEntries (dremove s.items item_id)) :=
      hpermItems.map _
    have hpPerm := inv.ppermE.trans hpE
    have hqPerm := inv.qpermE.trans hqE
    have hpMem : ((item.price : Int), item_id) ∈ s.price_index :=
      hpPerm.mem_iff.mpr (List.mem_cons_self _ _)
    have hqMem : ((item.qty : Int), item_id) ∈ s.quantity_index :=
      hqPerm.mem_iff.mpr (List.mem_cons_self _ _)
    rw [snippet_eq_popAt inv.psort hpMem, snippet_eq_popAt inv.qsort hqMem]
    refine ⟨?_, ?_, ?_, ?_, ?_, ?_, ?_, ?_, ?_⟩
    · exact inv.nodupKeys.sublist ((dremove_sublist _ _).map Prod.fst)
    · exact pop_key_perm inv.psort hpPerm
    · exact popAt_sorted inv.psort _
    · exact pop_key_perm inv.qsort hqPerm
    · exact popAt_sorted inv.qsort _
    · intro a v hv'; exact Option.noConfusion hv'
    · intro a v hv'; exact Option.noConfusion hv'
    · intro a v hv'; exact Option.noConfusion hv'
    · intro a v hv'; exact Option.noConfusion hv'

theorem SInv.rqq_step {s : SState} (inv : SInv s) (low high : Int) :
    SInv (range_query_quantity s low high).2 := by
  rw [range_query_quantity]
  cases hc : alookup s.cacheRQ (low, high) with
  | some v => exact inv
  | none =>
    refine ⟨inv.nodupKeys, inv.ppermE, inv.psort, inv.qpermE, inv.qsort,
      ?_, inv.cRV, inv.cTP, inv.cTQ⟩
    intro a v hv'
    have hv2 : alookup (((low, high), computeRQ s low high) :: s.cacheRQ) a
        = some v := hv'
    rw [alookup] at hv2
    split at hv2
    · next he =>
      injection hv2 with hv2
      subst hv2
      subst he
      rfl
    · exact inv.cRQ a v hv2

theorem SInv.rqv_step {s : SState} (inv : SInv s) (low high : Int) :
    SInv (range_query_value s low high).2 := by
  rw [range_query_value]
  cases hc : alookup s.cacheRV (low, high) with
  | some v => exact inv
  | none =>
    refine ⟨inv.nodupKeys, inv.ppermE, inv.psort, inv.qpermE, inv.qsort,
      inv.cRQ, ?_, inv.cTP, inv.cTQ⟩
    intro a v hv'
    have hv2 : alookup (((low, high), computeRV s low high) :: s.cacheRV) a
        = some v := hv'
    rw [alookup] at hv2
    split at hv2
    · next he =>
      injection hv2 with hv2
      subst hv2
      subst he
      rfl
    · exact inv.cRV a v hv2

theorem SInv.tkp_step {s : SState} (inv : SInv s) (k : Int) :
    SInv (top_k_by_price s k).2 := by
  rw [top_k_by_price]
  cases hc : alookup s.cacheTP k with
  | some v => exact inv
  | none =>
    refine ⟨inv.nodupKeys, inv.ppermE, inv.psort, inv.qpermE, inv.qsort,
      inv.cRQ, inv.cRV, ?_, inv.cTQ⟩
    intro a v hv'
    have hv2 : alookup ((k, computeTP s k) :: s.cacheTP) a = some v := hv'
    rw [alookup] at hv2
    split at hv2
    · next he =>
      injection hv2 with hv2
      subst hv2
      subst he
      rfl
    · exact inv.cTP a v hv2

theorem SInv.tkq_step {s : SState} (inv : SInv s) (k : Int) :
    SInv (top_k_by_quantity s k).2 := by
  rw [top_k_by_quantity]
  cases hc : alookup s.cacheTQ k with
  | some v => exact inv
  | none =>
    refine ⟨inv.nodupKeys, inv.ppermE, inv.psort, inv.qpermE, inv.qsort,
      inv.cRQ, inv.cRV, inv.cTP, ?_⟩
    intro a v hv'
    have hv2 : alookup ((k, computeTQ s k) :: s.cacheTQ) a = some v := hv'
    rw [alookup] at hv2
    split at hv2
    · next he =>
      injection hv2 with hv2
      subst hv2
      subst he
      rfl
    · exact inv.cTQ a v hv2

/-- Every reachable service state is well formed. -/
theorem reach_sinv : ∀ {s : SState}, Reach s → SInv s := by
  intro s h
  induction h with
  | init =>
    refine ⟨?_, ?_, ?_, ?_, ?_, ?_, ?_, ?_, ?_⟩
    · exact List.nodup_nil
    · exact List.Perm.refl _
    · exact List.Pairwise.nil
    · exact List.Perm.refl _
    · exact List.Pairwise.nil
    · intro a v hv; exact Option.noConfusion hv
    · intro a v hv; exact Option.noConfusion hv
    · intro a v hv; exact Option.noConfusion hv
    · intro a v hv; exact Option.noConfusion hv
  | upsert s item_id p q me _ ih =>
    rw [upsertState]
    cases hu : upsert_item s item_id p q me with
    | ok s' => simp only [hu]; exact ih.upsert_ok hu
    | error e => simp only [hu]; exact ih
  | remove s item_id _ ih =>
    rw [removeState]
    cases hu : remove_item s item_id with
    | ok s' => simp only [hu]; exact ih.remove_ok hu
    | error e => simp only [hu]; exact ih
  | rqq s low high _ ih => exact ih.rqq_step low high
  | rqv s low high _ ih => exact ih.rqv_step low high
  | tkp s k _ ih => exact ih.tkp_step k
  | tkq s k _ ih => exact ih.tkq_step k

/-! ### Shapes of successful mutations and cached query values -/

theorem upsert_ok_shape {s : SState} {item_id : ItemId} {p q : Int}
    {me : Option Meta} {s' : SState}
    (h : upsert_item s item_id p q me = .ok s') :
    s'.items = dinsert s.items item_id ⟨p, q, normMeta me⟩ ∧
    s'.cacheRQ = [] ∧ s'.cacheRV = [] ∧ s'.cacheTP = [] ∧ s'.cacheTQ = [] := by
  rw [upsert_item] at h
  split at h
  · exact Except.noConfusion h
  · cases hl : alookup s.items item_id with
    | none =>
      simp only [hl] at h
      injection h with h
      subst h
      exact ⟨rfl, rfl, rfl, rfl, rfl⟩
    | some old =>
      simp only [hl] at h
      injection h with h
      subst h
      exact ⟨rfl, rfl, rfl, rfl, rfl⟩

theorem remove_ok_shape {s : SState} {item_id : ItemId} {s' : SState}
    (h : remove_item s item_id = .ok s') :
    s'.items = dremove s.items item_id ∧
    s'.cacheRQ = [] ∧ s'.cacheRV = [] ∧ s'.cacheTP = [] ∧ s'.cacheTQ = [] := by
  rw [remove_item] at h
  cases hl : alookup s.items item_id with
  | none =>
    rw [hl] at h
    exact Except.noConfusion h
  | some item =>
    simp only [hl] at h
    injection h with h
    subst h
    exact ⟨rfl, rfl, rfl, rfl, rfl⟩

/-- A query on an empty `range_query_quantity` memo table computes directly. -/
theorem rqq_miss {s : SState} (h : s.cacheRQ = []) (low high : Int) :
    (range_query_quantity s low high).1 = computeRQ s low high := by
  rw [range_query_quantity, h]
  rfl

theorem rqv_miss {s : SState} (h : s.cacheRV = []) (low high : Int) :
    (range_query_value s low high).1 = computeRV s low high := by
  rw [range_query_value, h]
  rfl

theorem tkp_miss {s : SState} (h : s.cacheTP = []) (k : Int) :
    (top_k_by_price s k).1 = computeTP s k := by
  rw [top_k_by_price, h]
  rfl

theorem tkq_miss {s : SState} (h : s.cacheTQ = []) (k : Int) :
    (top_k_by_quantity s k).1 = computeTQ s k := by
  rw [top_k_by_quantity, h]
  rfl

/-- On a well-formed state every cached query agrees with its uncached
computation. -/
theorem rqq_val {s : SState} (inv : SInv s) (low high : Int) :
    (range_query_quantity s low high).1 = computeRQ s low high := by
  rw [range_query_quantity]
  cases hc : alookup s.cacheRQ (low, high) with
  | some v => exact inv.cRQ (low, high) v hc
  | none => rfl

theorem rqv_val {s : SState} (inv : SInv s) (low high : Int) :
    (range_query_value s low high).1 = computeRV s low high := by
  rw [range_query_value]
  cases hc : alookup s.cacheRV (low, high) with
  | some v => exact inv.cRV (low, high) v hc
  | none => rfl

theorem tkp_val {s : SState} (inv : SInv s) (k : Int) :
    (top_k_by_price s k).1 = computeTP s k := by
  rw [top_k_by_price]
  cases hc : alookup s.cacheTP k with
  | some v => exact inv.cTP k v hc
  | none => rfl

theorem tkq_val {s : SState} (inv : SInv s) (k : Int) :
    (top_k_by_quantity s k).1 = computeTQ s k := by
  rw [top_k_by_quantity]
  cases hc : alookup s.cacheTQ k with
  | some v => exact inv.cTQ k v hc
  | none => rfl

/-! ### Claims C4, C5, C6, C7 -/

/-- Claim C4: every successful `upsert_item` or `remove_item` clears all four
query caches, so any of the four queries issued immediately afterwards
returns the value computed directly from the post-mutation store and index
state (`compute*` is the body run on a cache miss), regardless of what was
cached before the mutation. -/
theorem c4_cache_coherence :
    ∀ (s : SState) (item_id : ItemId) (p q : Int) (me : Option Meta)
      (s₁ : SState) (rid : ItemId) (s₂ : SState) (low high k : Int),
      (upsert_item s item_id p q me = .ok s₁ →
        (range_query_quantity s₁ low high).1 = computeRQ s₁ low high ∧
        (range_query_value s₁ low high).1 = computeRV s₁ low high ∧
        (top_k_by_price s₁ k).1 = computeTP s₁ k ∧
        (top_k_by_quantity s₁ k).1 = computeTQ s₁ k) ∧
      (remove_item s rid = .ok s₂ →
        (range_query_quantity s₂ low high).1 = computeRQ s₂ low high ∧
        (range_query_value s₂ low high).1 = computeRV s₂ low high ∧
        (top_k_by_price s₂ k).1 = computeTP s₂ k ∧
        (top_k_by_quantity s₂ k).1 = computeTQ s₂ k) := by
  intro s item_id p q me s₁ rid s₂ low high k
  constructor
  · intro h
    obtain ⟨_, h1, h2, h3, h4⟩ := upsert_ok_shape h
    exact ⟨rqq_miss h1 low high, rqv_miss h2 low high,
      tkp_miss h3 k, tkq_miss h4 k⟩
  · intro h
    obtain ⟨_, h1, h2, h3, h4⟩ := remove_ok_shape h
    exact ⟨rqq_miss h1 low high, rqv_miss h2 low high,
      tkp_miss h3 k, tkq_miss h4 k⟩

/-- Claim C5: `upsert_item` fails, and fails with `InvalidItemError`, exactly
when `price < 0` or `qty < 0`; such a failure leaves the whole state (store,
both indexes, caches) untouched, and otherwise the call succeeds and stores
the record `⟨p, q, metadata or {}⟩` under the identifier. -/
theorem c5_upsert_validation :
    ∀ (s : SState) (item_id : ItemId) (p q : Int) (me : Option Meta),
      (upsert_item s item_id p q me = .error .invalidItem ↔ (p < 0 ∨ q < 0)) ∧
      (∀ e, upsert_item s item_id p q me = .error e → e = .invalidItem) ∧
      ((p < 0 ∨ q < 0) → upsertState s item_id p q me = s) ∧
      (¬(p < 0 ∨ q < 0) → ∃ s', upsert_item s item_id p q me = .ok s' ∧
        alookup s'.items item_id = some ⟨p, q, normMeta me⟩) := by
  intro s item_id p q me
  by_cases hv : p < 0 ∨ q < 0
  · refine ⟨⟨fun _ => hv, fun _ => by rw [upsert_item, if_pos hv]⟩, ?_, ?_, ?_⟩
    · intro e he
      rw [upsert_item, if_pos hv] at he
      injection he with he
      exact he.symm
    · intro _
      rw [upsertState, upsert_item, if_pos hv]
    · intro h
      exact absurd hv h
  · refine ⟨⟨?_, fun h => absurd h hv⟩, ?_, fun h => absurd h hv, ?_⟩
    · intro he
      rw [upsert_item, if_neg hv] at he
      exact Except.noConfusion he
    · intro e he
      rw [upsert_item, if_neg hv] at he
      exact Except.noConfusion he
    · intro _
      cases hu : upsert_item s item_id p q me with
      | error e =>
        rw [upsert_item, if_neg hv] at hu
        exact Except.noConfusion hu
      | ok s' =>
        obtain ⟨hi, _⟩ := upsert_ok_shape hu
        exact ⟨s', rfl, by rw [hi]; exact alookup_dinsert_self _ _ _⟩

/-- Claim C6: `remove_item` and `get_item` fail, and fail with
`ItemNotFoundError`, exactly when the identifier is absent from the store; a
failing `remove_item` leaves the whole state untouched (`get_item` never
mutates), and a successful `get_item` returns the stored record. -/
theorem c6_notfound_behaviour :
    ∀ (s : SState) (item_id : ItemId),
      ((∃ e, remove_item s item_id = .error e) ↔
        alookup s.items item_id = none) ∧
      (∀ e, remove_item s item_id = .error e → e = .itemNotFound) ∧
      ((∃ e, get_item s item_id = .error e) ↔
        alookup s.items item_id = none) ∧
      (∀ e, get_item s item_id = .error e → e = .itemNotFound) ∧
      (alookup s.items item_id = none → removeState s item_id = s) ∧
      (∀ it, alookup s.items item_id = some it →
        get_item s item_id = .ok it) := by
  intro s item_id
  cases hl : alookup s.items item_id with
  | none =>
    refine ⟨⟨fun _ => rfl, fun _ => ⟨.itemNotFound, ?_⟩⟩, ?_, ⟨fun _ => rfl,
      fun _ => ⟨.itemNotFound, ?_⟩⟩, ?_, ?_, ?_⟩
    · rw [remove_item, hl]
    · intro e he
      rw [remove_item, hl] at he
      injection he with he
      exact he.symm
    · rw [get_item, hl]
    · intro e he
      rw [get_item, hl] at he
      injection he with he
      exact he.symm
    · intro _
      rw [removeState, remove_item, hl]
    · intro it hit
      exact Option.noConfusion hit
  | some it₀ =>
    refine ⟨⟨?_, ?_⟩, ?_, ⟨?_, ?_⟩, ?_, ?_, ?_⟩
    · rintro ⟨e, he⟩
      rw [remove_item, hl] at he
      exact Except.noConfusion he
    · intro h
      exact Option.noConfusion h
    · intro e he
      rw [remove_item, hl] at he
      exact Except.noConfusion he
    · rintro ⟨e, he⟩
      rw [get_item, hl] at he
      exact Except.noConfusion he
    · intro h
      exact Option.noConfusion h
    · intro e he
      rw [get_item, hl] at he
      exact Except.noConfusion he
    · intro h
      exact Option.noConfusion h
    · intro it hit
      injection hit with h2
      rw [get_item, hl, h2]

/-- Claim C7: immediately after a successful `upsert_item(id, p, q, m)` with
valid inputs, `get_item(id)` returns a record with price `p`, qty `q` and
metadata `m` (an absent metadata argument normalized to the empty mapping,
which is what `normMeta` performs). -/
theorem c7_roundtrip :
    ∀ (s : SState) (item_id : ItemId) (p q : Int) (me : Option Meta)
      (s' : SState), 0 ≤ p → 0 ≤ q →
      upsert_item s item_id p q me = .ok s' →
      get_item s' item_id = .ok ⟨p, q, normMeta me⟩ := by
  intro s item_id p q me s' _ _ h
  obtain ⟨hi, _⟩ := upsert_ok_shape h
  rw [get_item, hi, alookup_dinsert_self]

/-- Claim C7 at a concrete input: upsert then get on a fresh service. -/
theorem c7_roundtrip_witness :
    (0 : Int) ≤ 3 ∧ (0 : Int) ≤ 4 ∧
    get_item (upsertState initState [65] 3 4 none) [65] = .ok ⟨3, 4, []⟩ :=
  ⟨by decide, by decide,
    c7_roundtrip initState [65] 3 4 none _ (by decide) (by decide) rfl⟩

/-! ### Claims C1, C10, C3 -/

/-- In a dictionary with unique keys, filtering on a stored key keeps exactly
its entry. -/
theorem filter_key_eq {d : List (ItemId × Item)}
    (hnd : (d.map Prod.fst).Nodup) {k : ItemId} {v : Item}
    (h : alookup d k = some v) :
    d.filter (fun kv => decide (kv.1 = k)) = [(k, v)] := by
  induction d with
  | nil => exact Option.noConfusion h
  | cons e t ih =>
    obtain ⟨k₁, v₁⟩ := e
    rw [List.map_cons, List.nodup_cons] at hnd
    rw [alookup] at h
    split at h
    · next he =>
      injection h with h
      subst h
      have hk : k ∉ t.map Prod.fst := he ▸ hnd.1
      rw [List.filter_cons_of_pos (by simp [he]), he]
      have ht : t.filter (fun kv => decide (kv.1 = k)) = [] := by
        rw [List.filter_eq_nil_iff]
        intro kv hkv hdk
        simp only [decide_eq_true_eq] at hdk
        exact hk (hdk ▸ List.mem_map_of_mem Prod.fst hkv)
      rw [ht]
    · next he =>
      rw [List.filter_cons_of_neg (by simpa using he), ih hnd.2 h]

/-- Claim C1: on every reachable state, each identifier present in the store
has exactly one entry in the price index — the one keyed by the stored
price — and exactly one entry in the quantity index — the one keyed by the
stored qty (so both equalities produce one-element lists). -/
theorem c1_index_store_consistency :
    ∀ s, Reach s → ∀ (item_id : ItemId) (it : Item),
      alookup s.items item_id = some it →
      s.price_index.filter (fun e => decide (e.2 = item_id)) =
        [(it.price, item_id)] ∧
      s.quantity_index.filter (fun e => decide (e.2 = item_id)) =
        [(it.qty, item_id)] := by
  intro s hr item_id it h
  have inv := reach_sinv hr
  constructor
  · have hperm := inv.ppermE.filter (fun e => decide (e.2 = item_id))
    have hE : (priceEntries s.items).filter (fun e => decide (e.2 = item_id))
        = [(it.price, item_id)] := by
      rw [priceEntries, List.filter_map]
      have hco : s.items.filter
          ((fun e : IK => decide (e.2 = item_id)) ∘
            (fun kv => ((kv.2.price : Int), kv.1))) =
          s.items.filter (fun kv => decide (kv.1 = item_id)) :=
        List.filter_congr (fun kv _ => rfl)
      rw [hco, filter_key_eq inv.nodupKeys h]
      rfl
    rw [hE] at hperm
    exact hperm.eq_singleton
  · have hperm := inv.qpermE.filter (fun e => decide (e.2 = item_id))
    have hE : (qtyEntries s.items).filter (fun e => decide (e.2 = item_id))
        = [(it.qty, item_id)] := by
      rw [qtyEntries, List.filter_map]
      have hco : s.items.filter
          ((fun e : IK => decide (e.2 = item_id)) ∘
            (fun kv => ((kv.2.qty : Int), kv.1))) =
          s.items.filter (fun kv => decide (kv.1 = item_id)) :=
        List.filter_congr (fun kv _ => rfl)
      rw [hco, filter_key_eq inv.nodupKeys h]
      rfl
    rw [hE] at hperm
    exact hperm.eq_singleton

/-- Claim C1 at a concrete reachable state. -/
theorem c1_index_store_consistency_witness :
    (upsertState initState [65] 10 5 none).price_index.filter
      (fun e => decide (e.2 = [65])) = [((10 : Int), [65])] ∧
    (upsertState initState [65] 10 5 none).quantity_index.filter
      (fun e => decide (e.2 = [65])) = [((5 : Int), [65])] :=
  c1_index_store_consistency _
    (Reach.upsert initState [65] 10 5 none Reach.init) [65] ⟨10, 5, []⟩
    (by decide)

/-- Claim C10: on every reachable state, every price-index entry and every
quantity-index entry resolves to a stored item, and each index has exactly
as many entries as the store has items. -/
theorem c10_no_orphans :
    ∀ s, Reach s →
      (∀ e ∈ s.price_index, ∃ it, alookup s.items e.2 = some it) ∧
      (∀ e ∈ s.quantity_index, ∃ it, alookup s.items e.2 = some it) ∧
      s.price_index.length = s.items.length ∧
      s.quantity_index.length = s.items.length := by
  intro s hr
  have inv := reach_sinv hr
  refine ⟨?_, ?_, ?_, ?_⟩
  · intro e he
    have hm : e ∈ priceEntries s.items := inv.ppermE.mem_iff.mp he
    rw [priceEntries, List.mem_map] at hm
    obtain ⟨kv, hkv, rfl⟩ := hm
    exact ⟨kv.2, alookup_of_mem inv.nodupKeys hkv⟩
  · intro e he
    have hm : e ∈ qtyEntries s.items := inv.qpermE.mem_iff.mp he
    rw [qtyEntries, List.mem_map] at hm
    obtain ⟨kv, hkv, rfl⟩ := hm
    exact ⟨kv.2, alookup_of_mem inv.nodupKeys hkv⟩
  · rw [inv.ppermE.length_eq, priceEntries, List.length_map]
  · rw [inv.qpermE.length_eq, qtyEntries, List.length_map]

/-- Claim C10 at a concrete reachable state. -/
theorem c10_no_orphans_witness :
    (∀ e ∈ (upsertState initState [65] 10 5 none).price_index,
      ∃ it, alookup (upsertState initState [65] 10 5 none).items e.2
        = some it) ∧
    (∀ e ∈ (upsertState initState [65] 10 5 none).quantity_index,
      ∃ it, alookup (upsertState initState [65] 10 5 none).items e.2
        = some it) ∧
    (upsertState initState [65] 10 5 none).price_index.length =
      (upsertState initState [65] 10 5 none).items.length ∧
    (upsertState initState [65] 10 5 none).quantity_index.length =
      (upsertState initState [65] 10 5 none).items.length :=
  c10_no_orphans _ (Reach.upsert initState [65] 10 5 none Reach.init)

/-- Claim C3 evaluated at a failing input: on a reachable one-item state,
`top_k_by_price(0)` returns the whole store (the Python slice `lst[-0:]` is
the entire list), and on a reachable two-item state `top_k_by_quantity(-1)`
returns one item; the spec requires the empty sequence for every `k ≤ 0`. -/
theorem c3_topk_nonpositive_eval :
    Reach (upsertState initState [65] 10 5 none) ∧
    (top_k_by_price (upsertState initState [65] 10 5 none) 0).1 =
      [([65], ⟨10, 5, []⟩)] ∧
    (top_k_by_quantity
      (upsertState (upsertState initState [65] 10 5 none) [66] 20 2 none)
      (-1)).1 = [([65], ⟨10, 5, []⟩)] :=
  ⟨Reach.upsert initState [65] 10 5 none Reach.init, by decide, by decide⟩

/-! ### Claim C2: range queries -/

theorem strLt_nil (s : ItemId) : strLt s [] = false := by
  cases s <;> rfl

/-- Comparison against the lower probe `(low, "")`: the string part never
decides. -/
theorem ikLt_low (e : IK) (low : Int) :
    ikLt e (low, ([] : ItemId)) = decide (e.1 < low) := by
  simp [ikLt, strLt_nil]

/-- Comparison of the upper probe `(high, chr(0x10ffff))` against an entry
whose identifier does not exceed the sentinel. -/
theorem ikLt_high {id : ItemId} (hid : strLt sentinel id = false)
    (high p : Int) : ikLt ((high, sentinel) : IK) (p, id) = decide (high < p) := by
  simp [ikLt, hid]

theorem ikLt_of_fst_lt {a b : IK} (h : a.1 < b.1) : ikLt a b = true := by
  simp [ikLt, h]

theorem fst_le_of_ikLt {a b : IK} (h : ikLt a b = true) : a.1 ≤ b.1 := by
  simp only [ikLt, Bool.or_eq_true, Bool.and_eq_true, decide_eq_true_eq] at h
  rcases h with h | ⟨h, _⟩
  · omega
  · omega

/-- The slice `l[bisect_left(l,(low,"")) : bisect_right(l,(high,sentinel))]`
of a sorted index keeps exactly the entries between the two probes. -/
theorem sorted_slice_filter {l : List IK} (hs : SortedIK l) (low high : Int) :
    (l.take (l.countP (fun e => !ikLt (high, sentinel) e))).drop
        (l.countP (fun e => ikLt e (low, ([] : ItemId)))) =
    l.filter (fun e => !ikLt e (low, ([] : ItemId)) &&
      !ikLt (high, sentinel) e) := by
  by_cases hlh : low ≤ high
  · have hsub : ∀ e : IK, ikLt e (low, ([] : ItemId)) = true →
        (!ikLt (high, sentinel) e) = true := by
      intro e he
      rw [ikLt_low] at he
      simp only [decide_eq_true_eq] at he
      cases hb : ikLt (high, sentinel) e with
      | false => rfl
      | true =>
        have := fst_le_of_ikLt hb
        simp only at this
        omega
    obtain ⟨htakeR, _⟩ := sorted_take_countP
      (p := fun e => !ikLt (high, sentinel) e)
      (fun a b hb hba => by
        cases hxa : ikLt (high, sentinel) a with
        | false => simp [hxa]
        | true =>
          have := ikLt_of_lt_of_le hxa hba
          simp [this] at hb) hs
    rw [htakeR]
    have hsF : SortedIK (l.filter (fun e => !ikLt (high, sentinel) e)) :=
      hs.sublist (List.filter_sublist l)
    have hcount : l.countP (fun e => ikLt e (low, ([] : ItemId))) =
        (l.filter (fun e => !ikLt (high, sentinel) e)).countP
          (fun e => ikLt e (low, ([] : ItemId))) := by
      rw [List.countP_filter]
      refine (List.countP_congr ?_).symm
      intro e _
      constructor
      · intro he
        rw [Bool.and_eq_true] at he
        exact he.1
      · intro he
        rw [Bool.and_eq_true]
        exact ⟨he, hsub e he⟩
    rw [hcount]
    obtain ⟨_, hdropL⟩ := sorted_take_countP
      (p := fun e => ikLt e (low, ([] : ItemId)))
      (fun a b hb hba => ikLt_of_le_of_lt hba hb) hsF
    rw [hdropL, List.filter_filter]
  · have hsub2 : ∀ e ∈ l, (!ikLt e (low, ([] : ItemId)) &&
        !ikLt (high, sentinel) e) = false := by
      intro e _
      cases hb : ikLt (high, sentinel) e with
      | true => simp
      | false =>
        have h1 : e.1 ≤ high := by
          by_contra hgt
          rw [ikLt_of_fst_lt (show ((high, sentinel) : IK).1 < e.1 by
            simp only; omega)] at hb
          exact Bool.noConfusion hb
        have h2 : ikLt e (low, ([] : ItemId)) = true := by
          rw [ikLt_low]
          simp only [decide_eq_true_eq]
          omega
        rw [h2]
        simp
    have hle : l.countP (fun e => !ikLt (high, sentinel) e) ≤
        l.countP (fun e => ikLt e (low, ([] : ItemId))) := by
      refine List.countP_mono_left ?_
      intro e hel hb
      have h1 : e.1 ≤ high := by
        by_contra hgt
        rw [show (!ikLt (high, sentinel) e) = false by
          rw [ikLt_of_fst_lt (show ((high, sentinel) : IK).1 < e.1 by
            simp only; omega)]; rfl] at hb
        exact Bool.noConfusion hb
      rw [ikLt_low]
      simp only [decide_eq_true_eq]
      omega
    rw [List.drop_eq_nil_of_le (by rw [List.length_take]; omega),
      List.filter_eq_nil_iff.mpr (fun e hel h => by
        rw [hsub2 e hel] at h; exact Bool.noConfusion h)]

theorem bool_range_eq (p low high : Int) :
    (!decide (p < low) && !decide (high < p)) =
      (decide (low ≤ p) && decide (p ≤ high)) := by
  rw [Bool.eq_iff_iff]
  simp only [Bool.and_eq_true, Bool.not_eq_true', decide_eq_false_iff_not,
    decide_eq_true_eq]
  omega

/-- The range-scan body of the two range queries, for any per-item weight
`f`: on a well-formed state whose identifiers do not exceed the sentinel, it
sums `f` over exactly the stored items with price in `[low, high]`. -/
theorem compute_range_eq {s : SState} (inv : SInv s)
    (hids : ∀ item_id ∈ s.items.map Prod.fst, strLt sentinel item_id = false)
    (low high : Int) (f : Item → Int) :
    (((s.price_index.take (bisect_right s.price_index (high, sentinel))).drop
        (bisect_left s.price_index (low, ([] : ItemId)))).map
      (fun e => f ((alookup s.items e.2).getD junkItem))).sum =
    ((s.items.filter (fun kv =>
        decide (low ≤ kv.2.price) && decide (kv.2.price ≤ high))).map
      (fun kv => f kv.2)).sum := by
  rw [bisect_left_char inv.psort, bisect_right_char inv.psort,
    sorted_slice_filter inv.psort low high]
  have hperm := (inv.ppermE.filter (fun e => !ikLt e (low, ([] : ItemId)) &&
    !ikLt (high, sentinel) e)).map
      (fun e : IK => f ((alookup s.items e.2).getD junkItem))
  rw [hperm.sum_eq, priceEntries, List.filter_map, List.map_map]
  have hfilter : s.items.filter
      ((fun e : IK => !ikLt e (low, ([] : ItemId)) &&
        !ikLt (high, sentinel) e) ∘ (fun kv => ((kv.2.price : Int), kv.1))) =
      s.items.filter (fun kv =>
        decide (low ≤ kv.2.price) && decide (kv.2.price ≤ high)) := by
    refine List.filter_congr ?_
    intro kv hkv
    have hid := hids kv.1 (List.mem_map_of_mem Prod.fst hkv)
    show (!ikLt (kv.2.price, kv.1) (low, ([] : ItemId)) &&
      !ikLt (high, sentinel) (kv.2.price, kv.1)) = _
    rw [ikLt_low, ikLt_high hid]
    exact bool_range_eq kv.2.price low high
  rw [hfilter]
  refine congrArg List.sum (List.map_congr_left ?_)
  intro kv hkv
  show f ((alookup s.items kv.1).getD junkItem) = f kv.2
  rw [alookup_of_mem inv.nodupKeys (List.mem_of_mem_filter hkv)]
  rfl

/-- The value the C2 claim specifies for `range_query_quantity`: total `qty`
over the stored records with price in `[low, high]`. -/
def specRangeQty (s : SState) (low high : Int) : Int :=
  ((s.items.filter (fun kv =>
      decide (low ≤ kv.2.price) && decide (kv.2.price ≤ high))).map
    (fun kv => kv.2.qty)).sum

/-- The value the C2 claim specifies for `range_query_value`: total
`price * qty` over the stored records with price in `[low, high]`. -/
def specRangeVal (s : SState) (low high : Int) : Int :=
  ((s.items.filter (fun kv =>
      decide (low ≤ kv.2.price) && decide (kv.2.price ≤ high))).map
    (fun kv => kv.2.price * kv.2.qty)).sum

/-- A reachable state holding one item whose identifier exceeds the sentinel
`chr(0x10ffff)` (two code points `U+10FFFF`), with price 5 and qty 3. -/
def exoticState : SState :=
  upsertState initState [0x10FFFF, 0x10FFFF] 5 3 none

/-- Claim C2 as stated is false: with an identifier above the sentinel, the
probe `(high, chr(0x10ffff))` stops before the entry `(5, id)`, so
`range_query_quantity(5, 5)` returns 0 although the stored item has price 5
and qty 3. -/
theorem c2_range_query_counterexample :
    Reach exoticState ∧
    (range_query_quantity exoticState 5 5).1 ≠ specRangeQty exoticState 5 5 ∧
    (range_query_value exoticState 5 5).1 ≠ specRangeVal exoticState 5 5 :=
  ⟨Reach.upsert initState [0x10FFFF, 0x10FFFF] 5 3 none Reach.init,
    by decide, by decide⟩

/-- Claim C2, amended: on every reachable state all of whose identifiers are
at most the one-character string `chr(0x10ffff)` in Python string order,
`range_query_quantity(low, high)` returns the sum of `qty` and
`range_query_value(low, high)` the sum of `price * qty` over the stored
items with `low ≤ price ≤ high`. -/
theorem c2_range_query_amended :
    ∀ s, Reach s →
      (∀ item_id ∈ s.items.map Prod.fst, strLt sentinel item_id = false) →
      ∀ low high : Int,
        (range_query_quantity s low high).1 = specRangeQty s low high ∧
        (range_query_value s low high).1 = specRangeVal s low high := by
  intro s hr hids low high
  have inv := reach_sinv hr
  constructor
  · rw [rqq_val inv]
    exact compute_range_eq inv hids low high (fun it => it.qty)
  · rw [rqv_val inv]
    exact compute_range_eq inv hids low high (fun it => it.price * it.qty)

/-- Claim C2 (amended) at a concrete reachable state. -/
theorem c2_range_query_amended_witness :
    (range_query_quantity (upsertState initState [65] 10 5 none) 0 20).1 =
      specRangeQty (upsertState initState [65] 10 5 none) 0 20 ∧
    (range_query_value (upsertState initState [65] 10 5 none) 0 20).1 =
      specRangeVal (upsertState initState [65] 10 5 none) 0 20 :=
  c2_range_query_amended _ (Reach.upsert initState [65] 10 5 none Reach.init)
    (by decide) 0 20

/-! ### Claim C8: idempotent re-upsert -/

theorem priceEntries_nodup {items : List (ItemId × Item)}
    (hnd : (items.map Prod.fst).Nodup) : (priceEntries items).Nodup := by
  refine List.Nodup.of_map Prod.snd ?_
  have hm : (priceEntries items).map Prod.snd = items.map Prod.fst := by
    rw [priceEntries, List.map_map]
    rfl
  rw [hm]
  exact hnd

theorem qtyEntries_nodup {items : List (ItemId × Item)}
    (hnd : (items.map Prod.fst).Nodup) : (qtyEntries items).Nodup := by
  refine List.Nodup.of_map Prod.snd ?_
  have hm : (qtyEntries items).map Prod.snd = items.map Prod.fst := by
    rw [qtyEntries, List.map_map]
    rfl
  rw [hm]
  exact hnd

/-- Claim C8: re-upserting an identifier with its currently stored price,
qty and metadata leaves both index lists (exactly), every query result, and
the store size unchanged. -/
theorem c8_idempotence :
    ∀ s, Reach s → ∀ (item_id : ItemId) (it : Item),
      alookup s.items item_id = some it →
      (upsertState s item_id it.price it.qty (some it.metadata)).price_index
        = s.price_index ∧
      (upsertState s item_id it.price it.qty
        (some it.metadata)).quantity_index = s.quantity_index ∧
      (∀ id', get_item (upsertState s item_id it.price it.qty
        (some it.metadata)) id' = get_item s id') ∧
      (∀ low high, (range_query_quantity (upsertState s item_id it.price
        it.qty (some it.metadata)) low high).1 =
        (range_query_quantity s low high).1) ∧
      (∀ low high, (range_query_value (upsertState s item_id it.price it.qty
        (some it.metadata)) low high).1 = (range_query_value s low high).1) ∧
      (∀ k, (top_k_by_price (upsertState s item_id it.price it.qty
        (some it.metadata)) k).1 = (top_k_by_price s k).1) ∧
      (∀ k, (top_k_by_quantity (upsertState s item_id it.price it.qty
        (some it.metadata)) k).1 = (top_k_by_quantity s k).1) ∧
      lenItems (upsertState s item_id it.price it.qty (some it.metadata)) =
        lenItems s := by
  intro s hr item_id it h
  have inv := reach_sinv hr
  by_cases hv : it.price < 0 ∨ it.qty < 0
  · have hE : upsertState s item_id it.price it.qty (some it.metadata) = s := by
      rw [upsertState, upsert_item, if_pos hv]
    rw [hE]
    exact ⟨rfl, rfl, fun _ => rfl, fun _ _ => rfl, fun _ _ => rfl,
      fun _ => rfl, fun _ => rfl, rfl⟩
  · cases hu : upsert_item s item_id it.price it.qty (some it.metadata) with
    | error e =>
      rw [upsert_item, if_neg hv] at hu
      exact Except.noConfusion hu
    | ok s'' =>
      have hS : upsertState s item_id it.price it.qty (some it.metadata)
          = s'' := by
        rw [upsertState, hu]
      rw [hS]
      rw [upsert_item, if_neg hv] at hu
      simp only [h] at hu
      injection hu with hu
      subst hu
      have hpermItems := perm_cons_dremove h
      have hpE : (priceEntries s.items).Perm
          ((it.price, item_id) :: priceEntries (dremove s.items item_id)) :=
        hpermItems.map _
      have hqE : (qtyEntries s.items).Perm
          ((it.qty, item_id) :: qtyEntries (dremove s.items item_id)) :=
        hpermItems.map _
      have hpMem : ((it.price : Int), item_id) ∈ s.price_index :=
        (inv.ppermE.trans hpE).mem_iff.mpr (List.mem_cons_self _ _)
      have hqMem : ((it.qty : Int), item_id) ∈ s.quantity_index :=
        (inv.qpermE.trans hqE).mem_iff.mpr (List.mem_cons_self _ _)
      rw [snippet_eq_popAt inv.psort hpMem, snippet_eq_popAt inv.qsort hqMem]
      have hitems : dinsert s.items item_id
          ⟨it.price, it.qty, normMeta (some it.metadata)⟩ = s.items :=
        dinsert_self h
      have hpidx : insort (popAt s.price_index
          (bisect_left s.price_index (it.price, item_id)))
          (it.price, item_id) = s.price_index :=
        insort_popAt_self inv.psort
          (inv.ppermE.nodup_iff.mpr (priceEntries_nodup inv.nodupKeys)) hpMem
      have hqidx : insort (popAt s.quantity_index
          (bisect_left s.quantity_index (it.qty, item_id)))
          (it.qty, item_id) = s.quantity_index :=
        insort_popAt_self inv.qsort
          (inv.qpermE.nodup_iff.mpr (qtyEntries_nodup inv.nodupKeys)) hqMem
      rw [hitems, hpidx, hqidx]
      refine ⟨rfl, rfl, fun _ => rfl, ?_, ?_, ?_, ?_, rfl⟩
      · intro low high
        exact (rqq_miss rfl low high).trans (rqq_val inv low high).symm
      · intro low high
        exact (rqv_miss rfl low high).trans (rqv_val inv low high).symm
      · intro k
        exact (tkp_miss rfl k).trans (tkp_val inv k).symm
      · intro k
        exact (tkq_miss rfl k).trans (tkq_val inv k).symm

/-- Claim C8 at a concrete reachable state. -/
theorem c8_idempotence_witness :
    (upsertState (upsertState initState [65] 10 5 none) [65] 10 5
      (some [])).price_index =
      (upsertState initState [65] 10 5 none).price_index ∧
    (upsertState (upsertState initState [65] 10 5 none) [65] 10 5
      (some [])).quantity_index =
      (upsertState initState [65] 10 5 none).quantity_index ∧
    (∀ id', get_item (upsertState (upsertState initState [65] 10 5 none)
      [65] 10 5 (some [])) id' =
      get_item (upsertState initState [65] 10 5 none) id') ∧
    (∀ low high, (range_query_quantity (upsertState (upsertState initState
      [65] 10 5 none) [65] 10 5 (some [])) low high).1 =
      (range_query_quantity (upsertState initState [65] 10 5 none)
        low high).1) ∧
    (∀ low high, (range_query_value (upsertState (upsertState initState
      [65] 10 5 none) [65] 10 5 (some [])) low high).1 =
      (range_query_value (upsertState initState [65] 10 5 none)
        low high).1) ∧
    (∀ k, (top_k_by_price (upsertState (upsertState initState [65] 10 5
      none) [65] 10 5 (some [])) k).1 =
      (top_k_by_price (upsertState initState [65] 10 5 none) k).1) ∧
    (∀ k, (top_k_by_quantity (upsertState (upsertState initState [65] 10 5
      none) [65] 10 5 (some [])) k).1 =
      (top_k_by_quantity (upsertState initState [65] 10 5 none) k).1) ∧
    lenItems (upsertState (upsertState initState [65] 10 5 none) [65] 10 5
      (some [])) = lenItems (upsertState initState [65] 10 5 none) :=
  c8_idempotence _ (Reach.upsert initState [65] 10 5 none Reach.init)
    [65] ⟨10, 5, []⟩ (by decide)

/-! ### Claim C9: the unindexed reference implementation
(`inventory_service.py`) and top-K refinement -/

/-- State of the reference `Inventory`: just the record dictionary. -/
structure RInventory where
  items : List (ItemId × Item)
deriving DecidableEq, Repr

/-- Reference `Inventory.upsert_item`: validate, then store; its
`if metadata is None: metadata = {}` produces the same value as `normMeta`,
and its `Item` dataclass carries the same three fields as the indexed
service's `Item`. -/
def Inventory.upsert_item (r : RInventory) (item_id : ItemId)
    (price qty : Int) (metadata : Option Meta) :
    Except InvError RInventory :=
  if price < 0 ∨ qty < 0 then .error .invalidItem
  else .ok ⟨dinsert r.items item_id ⟨price, qty, normMeta metadata⟩⟩

/-- One stable-descending insertion step: the new element (earlier in the
input) goes before the first element whose key is not above its own, so
equal keys keep input order. -/
def insertDescBy (key : ItemId × Item → Int) (x : ItemId × Item) :
    List (ItemId × Item) → List (ItemId × Item)
  | [] => [x]
  | y :: t => if key x < key y then y :: insertDescBy key x t
              else x :: y :: t

/-- Stable descending sort by key (the documented behaviour of
`sorted(iterable, key=key, reverse=True)`). -/
def sortDescBy (key : ItemId × Item → Int) :
    List (ItemId × Item) → List (ItemId × Item)
  | [] => []
  | x :: t => insertDescBy key x (sortDescBy key t)

/-- `heapq.nlargest(n, iterable, key)`: documented equivalent of
`sorted(iterable, key=key, reverse=True)[:n]`, returning `[]` for `n ≤ 0`. -/
def nlargestBy (key : ItemId × Item → Int) (k : Int)
    (l : List (ItemId × Item)) : List (ItemId × Item) :=
  if k ≤ 0 then [] else (sortDescBy key l).take k.toNat

/-- Reference `Inventory.top_k_by_price`. -/
def Inventory.top_k_by_price (r : RInventory) (k : Int) :
    List (ItemId × Item) :=
  nlargestBy (fun kv => kv.2.price) k r.items

/-- Reference `Inventory.top_k_by_quantity`. -/
def Inventory.top_k_by_quantity (r : RInventory) (k : Int) :
    List (ItemId × Item) :=
  nlargestBy (fun kv => kv.2.qty) k r.items

/-- Pairs of states produced by one common sequence of successful upserts
run on both implementations. -/
inductive ReachPair : SState → RInventory → Prop where
  | init : ReachPair initState ⟨[]⟩
  | step : ∀ s r item_id price qty metadata s' r',
      ReachPair s r →
      upsert_item s item_id price qty metadata = .ok s' →
      Inventory.upsert_item r item_id price qty metadata = .ok r' →
      ReachPair s' r'

/-- Both members of a coupled run stay in lockstep: the indexed state is
reachable and the two record dictionaries are identical. -/
theorem reachPair_items {s : SState} {r : RInventory}
    (h : ReachPair s r) : Reach s ∧ s.items = r.items := by
  induction h with
  | init => exact ⟨Reach.init, rfl⟩
  | step s r item_id p q me s' r' _ hs hr ih =>
    constructor
    · have hre := Reach.upsert s item_id p q me ih.1
      simp only [upsertState, hs] at hre
      exact hre
    · obtain ⟨hi, _⟩ := upsert_ok_shape hs
      rw [Inventory.upsert_item] at hr
      split at hr
      · exact Except.noConfusion hr
      · injection hr with hr
        subst hr
        rw [hi, ih.2]

theorem insertDescBy_perm (key : ItemId × Item → Int) (x : ItemId × Item) :
    ∀ l, (insertDescBy key x l).Perm (x :: l)
  | [] => List.Perm.refl _
  | y :: t => by
      rw [insertDescBy]
      split
      · exact ((insertDescBy_perm key x t).cons y).trans
          (List.Perm.swap x y t)
      · exact List.Perm.refl _

theorem sortDescBy_perm (key : ItemId × Item → Int) :
    ∀ l, (sortDescBy key l).Perm l
  | [] => List.Perm.refl _
  | x :: t => by
      rw [sortDescBy]
      exact (insertDescBy_perm key x (sortDescBy key t)).trans
        ((sortDescBy_perm key t).cons x)

theorem insertDescBy_pairwise {key : ItemId × Item → Int}
    {x : ItemId × Item} :
    ∀ {l}, l.Pairwise (fun a b => ¬ key a < key b) →
      (insertDescBy key x l).Pairwise (fun a b => ¬ key a < key b) := by
  intro l
  induction l with
  | nil =>
    intro _
    exact List.pairwise_singleton _ x
  | cons y t ih =>
    intro h
    rw [List.pairwise_cons] at h
    rw [insertDescBy]
    split
    · next hlt =>
      rw [List.pairwise_cons]
      constructor
      · intro b hb
        rcases List.mem_cons.mp ((insertDescBy_perm key x t).mem_iff.mp hb)
          with rfl | hbt
        · omega
        · exact h.1 b hbt
      · exact ih h.2
    · next hge =>
      rw [List.pairwise_cons]
      refine ⟨?_, List.pairwise_cons.mpr h⟩
      intro b hb
      rcases List.mem_cons.mp hb with rfl | hbt
      · exact hge
      · have := h.1 b hbt
        omega

theorem sortDescBy_pairwise (key : ItemId × Item → Int) :
    ∀ l, (sortDescBy key l).Pairwise (fun a b => ¬ key a < key b)
  | [] => List.Pairwise.nil
  | x :: t => by
      rw [sortDescBy]
      exact insertDescBy_pairwise (sortDescBy_pairwise key t)

/-- Two rearrangements of the same elements that are both strictly
descending by key coincide. -/
theorem perm_sortedDesc_unique {key : ItemId × Item → Int} :
    ∀ {l₁ l₂ : List (ItemId × Item)}, l₁.Perm l₂ →
      l₁.Pairwise (fun a b => key b < key a) →
      l₂.Pairwise (fun a b => key b < key a) → l₁ = l₂ := by
  intro l₁
  induction l₁ with
  | nil =>
    intro l₂ hp _ _
    exact (hp.symm.eq_nil).symm
  | cons a t ih =>
    intro l₂ hp h1 h2
    cases l₂ with
    | nil => exact List.noConfusion hp.eq_nil
    | cons b t₂ =>
      have hab : a = b := by
        by_contra hne
        have ha2 : a ∈ t₂ := by
          rcases List.mem_cons.mp (hp.mem_iff.mp (List.mem_cons_self a t))
            with h | h
          · exact absurd h hne
          · exact h
        have hb2 : b ∈ t := by
          rcases List.mem_cons.mp (hp.mem_iff.mpr (List.mem_cons_self b t₂))
            with h | h
          · exact absurd h.symm hne
          · exact h
        have k1 := (List.pairwise_cons.mp h1).1 b hb2
        have k2 := (List.pairwise_cons.mp h2).1 a ha2
        omega
      subst hab
      rw [ih hp.cons_inv (List.pairwise_cons.mp h1).2
        (List.pairwise_cons.mp h2).2]

/-- Resolving the store's own entries back through the store restores the
store. -/
theorem resolve_entries {items : List (ItemId × Item)}
    (hnd : (items.map Prod.fst).Nodup) (keyf : Item → Int) :
    (items.map (fun kv => ((keyf kv.2 : Int), kv.1))).map
      (fun e : IK => (e.2, (alookup items e.2).getD junkItem)) = items := by
  rw [List.map_map]
  conv_rhs => rw [← List.map_id items]
  refine List.map_congr_left ?_
  intro kv hkv
  show (kv.1, (alookup items kv.1).getD junkItem) = kv
  rw [alookup_of_mem hnd hkv, Option.getD_some]

/-- A sorted duplicate-free index is strictly increasing in the tuple
order. -/
theorem strict_of_sorted_nodup {l : List IK} (hs : SortedIK l)
    (hnd : l.Nodup) : l.Pairwise (fun a b => ikLt a b = true) := by
  refine (hs.and hnd).imp ?_
  intro a b hab
  rcases ikLt_total a b with h | h | h
  · exact h
  · exact absurd h hab.2
  · rw [hab.1] at h
    exact absurd h (by decide)

theorem pySliceFrom_sublist (l : List α) (s : Int) :
    (pySliceFrom l s).Sublist l := by
  rw [pySliceFrom]
  split
  · exact List.drop_sublist _ _
  · exact List.drop_sublist _ _

/-- For positive `k`, the reversed slice `l[-k:]` is the first `k` entries
of the reversed index. -/
theorem reverse_pySlice {l : List IK} {k : Int} (hk : 1 ≤ k) :
    (pySliceFrom l (-k)).reverse = l.reverse.take k.toNat := by
  rw [pySliceFrom, if_pos (by omega), List.reverse_drop]
  by_cases hkl : k.toNat ≤ l.length
  · congr 1
    omega
  · rw [List.take_of_length_le (by rw [List.length_reverse]; omega),
      List.take_of_length_le (by rw [List.length_reverse]; omega)]

/-- Core of the top-K comparison for one index: the resolved reversed slice
is strictly descending in `(key, id)`, and, for positive `k` and pairwise
distinct keys, equals the first `k` entries of the reference's stable
descending sort of the same store. -/
theorem topk_core {l : List IK} {items : List (ItemId × Item)}
    (keyf : Item → Int)
    (hperm : l.Perm (items.map (fun kv => ((keyf kv.2 : Int), kv.1))))
    (hsort : SortedIK l)
    (hnd : (items.map Prod.fst).Nodup) :
    (∀ k : Int, ((pySliceFrom l (-k)).reverse.map
      (fun e : IK => (e.2, (alookup items e.2).getD junkItem))).Pairwise
      (fun a b => ikLt (keyf b.2, b.1) (keyf a.2, a.1) = true)) ∧
    (∀ k : Int, 1 ≤ k →
      (items.map (fun kv => keyf kv.2)).Pairwise (· ≠ ·) →
      (pySliceFrom l (-k)).reverse.map
        (fun e : IK => (e.2, (alookup items e.2).getD junkItem)) =
      (sortDescBy (fun kv => keyf kv.2) items).take k.toNat) := by
  have hEnodup : (items.map (fun kv => ((keyf kv.2 : Int), kv.1))).Nodup := by
    refine List.Nodup.of_map Prod.snd ?_
    have hm : (items.map (fun kv => ((keyf kv.2 : Int), kv.1))).map Prod.snd
        = items.map Prod.fst := by
      rw [List.map_map]
      rfl
    rw [hm]
    exact hnd
  have hlnd : l.Nodup := hperm.nodup_iff.mpr hEnodup
  have hstrict := strict_of_sorted_nodup hsort hlnd
  have hres : ∀ e ∈ l,
      (((keyf ((alookup items e.2).getD junkItem) : Int)), e.2) = e := by
    intro e he
    have hmem : e ∈ items.map (fun kv => ((keyf kv.2 : Int), kv.1)) :=
      hperm.mem_iff.mp he
    rw [List.mem_map] at hmem
    obtain ⟨kv, hkv, rfl⟩ := hmem
    show ((keyf ((alookup items kv.1).getD junkItem) : Int), kv.1) = _
    rw [alookup_of_mem hnd hkv, Option.getD_some]
  have hgen : ∀ L : List IK, L.Sublist l →
      (L.reverse.map
        (fun e : IK => (e.2, (alookup items e.2).getD junkItem))).Pairwise
        (fun a b => ikLt (keyf b.2, b.1) (keyf a.2, a.1) = true) := by
    intro L hL
    rw [List.pairwise_map]
    have hLs : L.reverse.Pairwise (fun a b => ikLt b a = true) :=
      List.pairwise_reverse.mpr (hstrict.sublist hL)
    refine hLs.imp_of_mem ?_
    intro a b ha hb hab
    have ha' : a ∈ l := hL.subset (List.mem_reverse.mp ha)
    have hb' : b ∈ l := hL.subset (List.mem_reverse.mp hb)
    show ikLt ((keyf ((alookup items b.2).getD junkItem) : Int), b.2)
      ((keyf ((alookup items a.2).getD junkItem) : Int), a.2) = true
    rw [hres b hb', hres a ha']
    exact hab
  constructor
  · intro k
    exact hgen _ (pySliceFrom_sublist l (-k))
  · intro k hk hdist
    rw [reverse_pySlice hk, List.map_take]
    congr 1
    have hp1 : (l.reverse.map
        (fun e : IK => (e.2, (alookup items e.2).getD junkItem))).Perm
        items := by
      have h1 := l.reverse_perm.map
        (fun e : IK => (e.2, (alookup items e.2).getD junkItem))
      have h2 := hperm.map
        (fun e : IK => (e.2, (alookup items e.2).getD junkItem))
      rw [resolve_entries hnd keyf] at h2
      exact h1.trans h2
    have hp2 := sortDescBy_perm (fun kv => keyf kv.2) items
    have hd1 : (l.reverse.map
        (fun e : IK => (e.2, (alookup items e.2).getD junkItem))).Pairwise
        (fun a b => keyf a.2 ≠ keyf b.2) := by
      have hh := ((hp1.map (fun kv => keyf kv.2)).pairwise_iff
        (fun h => Ne.symm h)).mpr hdist
      exact List.pairwise_map.mp hh
    have hd2 : (sortDescBy (fun kv => keyf kv.2) items).Pairwise
        (fun a b => keyf a.2 ≠ keyf b.2) := by
      have hh := ((hp2.map (fun kv => keyf kv.2)).pairwise_iff
        (fun h => Ne.symm h)).mpr hdist
      exact List.pairwise_map.mp hh
    have hs1 : (l.reverse.map
        (fun e : IK => (e.2, (alookup items e.2).getD junkItem))).Pairwise
        (fun a b => keyf b.2 < keyf a.2) := by
      refine ((hgen l (List.Sublist.refl l)).and hd1).imp ?_
      intro a b hab
      obtain ⟨h1, h2⟩ := hab
      simp only [ikLt, Bool.or_eq_true, Bool.and_eq_true,
        decide_eq_true_eq] at h1
      rcases h1 with h1 | ⟨h1, _⟩
      · exact h1
      · exact absurd h1.symm h2
    have hs2 : (sortDescBy (fun kv => keyf kv.2) items).Pairwise
        (fun a b => keyf b.2 < keyf a.2) := by
      refine ((sortDescBy_pairwise (fun kv => keyf kv.2) items).and hd2).imp
        ?_
      intro a b hab
      obtain ⟨h1, h2⟩ := hab
      omega
    exact perm_sortedDesc_unique (hp1.trans hp2.symm) hs1 hs2

/-- Claim C9, amended: after any common sequence of successful upserts on
both implementations, each indexed `top_k` result is strictly descending in
`(key, identifier)` (descending keys, ties broken by descending identifier)
for every `k`; and for `k ≥ 1`, when the relevant keys are pairwise
distinct, it coincides with the reference `Inventory`'s result. -/
theorem c9_topk_refinement :
    ∀ s r, ReachPair s r → ∀ k : Int,
      ((top_k_by_price s k).1.Pairwise (fun a b =>
        ikLt (b.2.price, b.1) (a.2.price, a.1) = true)) ∧
      ((top_k_by_quantity s k).1.Pairwise (fun a b =>
        ikLt (b.2.qty, b.1) (a.2.qty, a.1) = true)) ∧
      (1 ≤ k → (s.items.map (fun kv => kv.2.price)).Pairwise (· ≠ ·) →
        (top_k_by_price s k).1 = Inventory.top_k_by_price r k) ∧
      (1 ≤ k → (s.items.map (fun kv => kv.2.qty)).Pairwise (· ≠ ·) →
        (top_k_by_quantity s k).1 = Inventory.top_k_by_quantity r k) := by
  intro s r hpair k
  obtain ⟨hre, hitems⟩ := reachPair_items hpair
  have inv := reach_sinv hre
  have hpe : s.price_index.Perm
      (s.items.map (fun kv => ((kv.2.price : Int), kv.1))) := inv.ppermE
  have hqe : s.quantity_index.Perm
      (s.items.map (fun kv => ((kv.2.qty : Int), kv.1))) := inv.qpermE
  have hcoreP := topk_core (fun it => it.price) hpe inv.psort inv.nodupKeys
  have hcoreQ := topk_core (fun it => it.qty) hqe inv.qsort inv.nodupKeys
  refine ⟨?_, ?_, ?_, ?_⟩
  · rw [tkp_val inv]
    exact hcoreP.1 k
  · rw [tkq_val inv]
    exact hcoreQ.1 k
  · intro hk hdist
    rw [tkp_val inv, Inventory.top_k_by_price, nlargestBy,
      if_neg (by omega), ← hitems]
    exact hcoreP.2 k hk hdist
  · intro hk hdist
    rw [tkq_val inv, Inventory.top_k_by_quantity, nlargestBy,
      if_neg (by omega), ← hitems]
    exact hcoreQ.2 k hk hdist

/-- The coupled state with two items of equal price 5 upserted as `"a"`
then `"b"`. -/
def tieStateS : SState :=
  upsertState (upsertState initState [97] 5 1 none) [98] 5 2 none

/-- The reference dictionary after the same two upserts. -/
def tieStateR : RInventory := ⟨[([97], ⟨5, 1, []⟩), ([98], ⟨5, 2, []⟩)]⟩

/-- Claim C9 as stated is false: on a price tie the indexed `top_k_by_price`
breaks ties by descending identifier (`"b"` before `"a"`), while
`heapq.nlargest` is stable and keeps dictionary insertion order (`"a"`
before `"b"`), so the two sequences differ. -/
theorem c9_topk_counterexample :
    ReachPair tieStateS tieStateR ∧
    (top_k_by_price tieStateS 2).1 ≠ Inventory.top_k_by_price tieStateR 2 := by
  constructor
  · exact ReachPair.step _ _ [98] 5 2 none _ _
      (ReachPair.step _ _ [97] 5 1 none _ _ ReachPair.init rfl rfl) rfl rfl
  · decide

/-- The coupled state with two items of distinct prices. -/
def wPairS : SState :=
  upsertState (upsertState initState [97] 7 1 none) [98] 5 2 none

/-- The reference dictionary after the same two upserts. -/
def wPairR : RInventory := ⟨[([97], ⟨7, 1, []⟩), ([98], ⟨5, 2, []⟩)]⟩

/-- Claim C9 (amended) at a concrete coupled run. -/
theorem c9_topk_refinement_witness :
    ((top_k_by_price wPairS 2).1.Pairwise (fun a b =>
      ikLt (b.2.price, b.1) (a.2.price, a.1) = true)) ∧
    ((top_k_by_quantity wPairS 2).1.Pairwise (fun a b =>
      ikLt (b.2.qty, b.1) (a.2.qty, a.1) = true)) ∧
    ((1 : Int) ≤ 2 → (wPairS.items.map (fun kv => kv.2.price)).Pairwise
      (· ≠ ·) → (top_k_by_price wPairS 2).1 =
      Inventory.top_k_by_price wPairR 2) ∧
    ((1 : Int) ≤ 2 → (wPairS.items.map (fun kv => kv.2.qty)).Pairwise
      (· ≠ ·) → (top_k_by_quantity wPairS 2).1 =
      Inventory.top_k_by_quantity wPairR 2) :=
  c9_topk_refinement wPairS wPairR
    (ReachPair.step _ _ [98] 5 2 none _ _
      (ReachPair.step _ _ [97] 7 1 none _ _ ReachPair.init rfl rfl) rfl rfl)
    2
